import Mathlib

/-!
Verification of the combinatorial cut-analyzer in src/check.hpp.

The C++ code is shallowly embedded: machine ints become Nat or Int (every
quantity involved stays far below 2^31, so no wrap-around is modelled; the
places where C++ subtraction can go negative use Int), vectors of ints become
Lean functions or lists, and std::set iteration order is modelled by sorted
duplicate-free lists.  Distance matrices are total functions Nat → Nat → Nat;
the C++ code only ever reads indices below n, so values outside that range
are irrelevant to every statement below.
-/

/-- Sentinel used by the C++ code for unreachable distances (const int INF). -/
def INF : Nat := 10000

/-- The immutable graph data of a Configuration: vertex count n, ring size r,
and the adjacency lists VtoV_ (a vector of sets in C++; modelled as lists,
duplicate-free and sorted in every concrete instance). -/
structure Graph where
  n : Nat
  r : Nat
  adj : List (List Nat)
deriving Repr, DecidableEq

/-- Neighbour set VtoV_[v]. -/
def Graph.nbrs (g : Graph) (v : Nat) : List Nat := g.adj.getD v []

/-- Membership test u ∈ VtoV_[v]. -/
def Graph.adjB (g : Graph) (v u : Nat) : Bool := (g.nbrs v).contains u

/-- Degree of a vertex, VtoV_[v].size(). -/
def degreeOf (g : Graph) (v : Nat) : Nat := (g.nbrs v).length

/-- isForbiddenCut(cutsize, component_size) from check.hpp. -/
def isForbiddenCut (cutsize componentSize : Int) : Bool :=
  if cutsize ≤ 4 then decide (0 < componentSize)
  else if cutsize = 5 then decide (1 < componentSize)
  else if cutsize = 6 then decide (3 < componentSize)
  else if cutsize = 7 then decide (4 < componentSize)
  else false

/-- The weight matrix built at the start of Configuration::WF: dist[v][v] = 0,
then dist[v][u] = 1 for u ∈ VtoV_[v] (so a self-loop would end up at 1),
everything else INF. -/
def initDist (g : Graph) : Nat → Nat → Nat := fun v u =>
  if g.adjB v u then 1 else if v = u then 0 else INF

/-- Setting dist[a][b] = dist[b][a] = 0 for one contracted edge. -/
def zeroEdge (d : Nat → Nat → Nat) (a b : Nat) : Nat → Nat → Nat := fun i j =>
  if (i = a ∧ j = b) ∨ (i = b ∧ j = a) then 0 else d i j

/-- The contraction loop of WF(true): each listed edge gets weight 0 in both
directions (the assertion of that loop is modelled separately by wfAssertAux). -/
def applyContract (d : Nat → Nat → Nat) : List (Nat × Nat) → (Nat → Nat → Nat)
  | [] => d
  | e :: rest => applyContract (zeroEdge d e.1 e.2) rest

/-- One pivot step of Warshall-Floyd.  The C++ loop updates in place, but with
non-negative entries the row and column of the pivot k are unchanged during
step k, so the in-place and the functional update coincide on Nat. -/
def fwStep (d : Nat → Nat → Nat) (k : Nat) : Nat → Nat → Nat := fun i j =>
  min (d i j) (d i k + d k j)

/-- Pivots 0, 1, ..., m-1 of Warshall-Floyd. -/
def fwLoop (d : Nat → Nat → Nat) : Nat → (Nat → Nat → Nat)
  | 0 => d
  | k + 1 => fwStep (fwLoop d k) k

/-- Configuration::WF(after_contract): all-pairs shortest paths on the matrix
obtained from the adjacency, with the contracted edges zero-weighted. -/
def WFdist (g : Graph) (contract : List (Nat × Nat)) : Nat → Nat → Nat :=
  fwLoop (applyContract (initDist g) contract) g.n

/-- The sequence of assertions assert(dist[e.first][e.second] == 1) executed
by WF(true): each contract pair must sit at distance exactly 1 in the matrix
as mutated by the previously processed pairs. -/
def wfAssertAux (d : Nat → Nat → Nat) : List (Nat × Nat) → Bool
  | [] => true
  | e :: rest => if d e.1 e.2 = 1 then wfAssertAux (zeroEdge d e.1 e.2) rest else false

/-- Whether WF(true) runs through its assertions for this contract list. -/
def WFok (g : Graph) (contract : List (Nat × Nat)) : Bool :=
  wfAssertAux (initDist g) contract

/-- WF(true) as fallible code: none models the fatal assertion failure. -/
def WFchecked (g : Graph) (contract : List (Nat × Nat)) : Option (Nat → Nat → Nat) :=
  if WFok g contract then some (WFdist g contract) else none

/-- calcRepresentative for one vertex: the first u (scanning 0, 1, ...) with
dist_contracted_[u][v] = 0 (the call equivalent(v, u) reads the matrix at
[u][v]); -1 is the untouched C++ initial value, unreachable for v < n. -/
def representativeF (n : Nat) (dC : Nat → Nat → Nat) (v : Nat) : Int :=
  match (List.range n).find? (fun u => dC u v == 0) with
  | some u => (u : Int)
  | none => -1

/-- The recursive path enumerator inside calculatePaths.  fuel bounds the
recursion depth; calculatePaths starts it with fuel 8, which the length cap
(8 vertices per path) makes sufficient. -/
def calcPathsAux (g : Graph) (q : Nat) : Nat → Nat → List Nat → List (List Nat)
  | fuel, v, path =>
    let path2 := path ++ [v]
    if v = q then [path2]
    else if path2.length = 8 then []
    else
      match fuel with
      | 0 => []
      | fuel + 1 =>
        (((g.nbrs v).filter (fun u => !path2.contains u)).map
          (fun u => calcPathsAux g q fuel u path2)).flatten

/-- calculatePaths(p, q): all simple paths of at most 7 edges from p to q;
this is the content of the cache all_paths_[p][q]. -/
def allPathsF (g : Graph) (p q : Nat) : List (List Nat) := calcPathsAux g q 8 p []

/-- Append a vertex to a component under construction unless it is cut away
or already present. -/
def pushNew (cutset : List Nat) (acc : List Nat) (u : Nat) : List Nat :=
  if cutset.contains u || acc.contains u then acc else acc ++ [u]

/-- One round of breadth-first expansion of a component. -/
def expandOnce (g : Graph) (cutset : List Nat) (cur : List Nat) : List Nat :=
  cur.foldl (fun acc v => (g.nbrs v).foldl (pushNew cutset) acc) cur

/-- Iterated expansion; g.n rounds reach the closure. -/
def componentClosure (g : Graph) (cutset : List Nat) : Nat → List Nat → List Nat
  | 0, cur => cur
  | fuel + 1, cur => componentClosure g cutset fuel (expandOnce g cutset cur)

/-- The set of vertices reachable from the seeds without entering the cutset.
The C++ code computes the same membership set by depth-first search; only
membership (never the traversal order) is consumed downstream. -/
def componentFrom (g : Graph) (cutset seeds : List Nat) : List Nat :=
  componentClosure g cutset g.n (seeds.foldl (pushNew cutset) [])

/-- The ring vertices strictly between p and q going forward: (p+1)%r, ...,
up to but excluding q, exactly the seed loop of getComponent. -/
def ringArc (r p q : Nat) : List Nat :=
  (List.range ((q + r - (p + 1)) % r)).map (fun i => (p + 1 + i) % r)

/-- getComponent(pqpath): the side of the path containing the forward ring
arc from its first to its last vertex. -/
def getComponentF (g : Graph) (pqpath : List Nat) : List Nat :=
  componentFrom g pqpath (ringArc g.r (pqpath.headD 0) (pqpath.getLastD 0))

/-- The two-path getComponent(q1p2_path, q2p1_path): the component of the
reversed second path minus the component of the first. -/
def getComponentTwoF (g : Graph) (q1p2 q2p1 : List Nat) : List Nat :=
  let comp2 := getComponentF g q1p2
  (getComponentF g q2p1.reverse).filter (fun v => !comp2.contains v)

/-- getComponent2(q1p2_path, q2p1_path): the symmetric difference of the two
one-path components (the C++ loop erases the intersection from a set while
keeping the rest; only the resulting membership counts are consumed). -/
def getComponent2F (g : Graph) (q1p2 q2p1 : List Nat) : List Nat :=
  let c1 := getComponentF g q1p2
  let c2 := getComponentF g q2p1
  (c2.filter (fun v => !c1.contains v)) ++ (c1.filter (fun v => !c2.contains v))

/-- Count (ring vertices, interior vertices) of a component. -/
def countRingSplit (r : Nat) (component : List Nat) : Nat × Nat :=
  (component.countP (fun v => decide (v < r)), component.countP (fun v => decide (r ≤ v)))

/-- sizeOfVertices(pqpath). -/
def sizeOfVerticesF (g : Graph) (pqpath : List Nat) : Nat × Nat :=
  countRingSplit g.r (getComponentF g pqpath)

/-- sizeOfVertices(q1p2_path, q2p1_path). -/
def sizeOfVerticesTwoF (g : Graph) (p1 p2 : List Nat) : Nat × Nat :=
  countRingSplit g.r (getComponentTwoF g p1 p2)

/-- sizeOfVertices2(q1p2_path, q2p1_path). -/
def sizeOfVertices2F (g : Graph) (p1 p2 : List Nat) : Nat × Nat :=
  countRingSplit g.r (getComponent2F g p1 p2)

/-- number_in_ring: how many consecutive edges of the path have both
endpoints on the ring. -/
def numberInRing (r : Nat) (path : List Nat) : Nat :=
  (path.zip path.tail).countP (fun e => decide (e.1 < r) && decide (e.2 < r))

/-- canBeAlmostMinimal(path, k, cutSize); number_in_ring ≥ pathlen - 3 over
C++ int is written pathlen ≤ nir + 3. -/
def canBeAlmostMinimal (r : Nat) (path : List Nat) (k cutSize : Nat) : Bool :=
  let pathlen := path.length - 1
  let nir := numberInRing r path
  decide ((nir = pathlen ∧ 6 ≤ pathlen + k) ∨
    ((pathlen ≤ 3 ∨ pathlen ≤ nir + 3) ∧ pathlen + k = 7 ∧ cutSize = 6))

/-- The two-path overload of canBeAlmostMinimal. -/
def canBeAlmostMinimalTwo (r : Nat) (path1 path2 : List Nat) (k1 k2 cutSize : Nat) : Bool :=
  let pathlen := (path1.length - 1) + (path2.length - 1)
  let nir := numberInRing r path1 + numberInRing r path2
  let k := k1 + k2
  decide ((nir = pathlen ∧ 6 ≤ pathlen + k) ∨
    ((pathlen ≤ 3 ∨ pathlen ≤ nir + 3) ∧ pathlen + k = 7 ∧ cutSize = 6))

/-- canBeAlmostMinimal2(path1, path2, k1, k2, cutSize). -/
def canBeAlmostMinimal2 (r : Nat) (path1 path2 : List Nat) (k1 k2 cutSize : Nat) : Bool :=
  let numInside := k1 + ((path1.length - 1) - numberInRing r path1) +
    ((path2.length - 1) - numberInRing r path2)
  let l := (path1.length - 1) + (path2.length - 1) + k1 + k2
  decide ((numInside = 0 ∧ 6 ≤ l) ∨ (numInside ≤ 3 ∧ l = 7 ∧ cutSize = 6))

/-- The component-size expression max(s - max(d, 0) + 1, 0) / 2 + t, where d
is k-1, k1+k2-2 or cutSize-k-1 depending on the call site; the numerator is
non-negative, so C++ int division is floor division. -/
def szOf (s t : Nat) (d : Int) : Nat := (max ((s : Int) - max d 0 + 1) 0).toNat / 2 + t

/-- checkShortCycle(a, b, k, cutSize): scans the cached a-b paths; a path
that canBeAlmostMinimal is skipped, otherwise a forbidden cut or the special
(k,m) ∈ {(2,3),(1,4)} case returns true immediately. -/
def checkShortCycle (g : Graph) (a b k cutSize : Nat) : Bool :=
  (allPathsF g a b).any (fun R =>
    !canBeAlmostMinimal g.r R k cutSize &&
    (let m := R.length - 1
     let st := sizeOfVerticesF g R
     (isForbiddenCut ((k : Int) + m) (szOf st.1 st.2 ((k : Int) - 1)) ||
      decide (((k = 2 ∧ m = 3) ∨ (k = 1 ∧ m = 4)) ∧ st.1 = 2 ∧ st.2 = 0 ∧
        degreeOf g ((a + 1) % g.r) ≤ 4 ∧ degreeOf g ((a + 2) % g.r) ≤ 4))))

/-- forbiddenCycle(a, b, k, cutSize). -/
def forbiddenCycle (g : Graph) (a b k cutSize : Nat) : Bool :=
  let b2 := if a < b then b else b + g.r
  let q := b2 - a
  if q = k then false
  else if q < k then true
  else checkShortCycle g a b k cutSize

/-- forbiddenCycleOneEdge(a, b, k, cutSize). -/
def forbiddenCycleOneEdge (g : Graph) (a b k cutSize : Nat) : Bool :=
  let b2 := if a < b then b else b + g.r
  let q := b2 - a
  let Q := ((List.range (b2 + 1 - a)).map (fun i => (a + i) % g.r)).reverse
  let st := sizeOfVerticesF g Q
  let sz := szOf st.1 st.2 ((cutSize : Int) - k - 1)
  let l : Int := (cutSize : Int) - k + q + 1
  (!decide (l = 7 ∧ cutSize = 6) && isForbiddenCut l sz) ||
  (allPathsF g a b).any (fun R =>
    let m := R.length - 1
    let nir := numberInRing g.r R
    !decide ((m ≤ 2 ∨ m ≤ nir + 2) ∧ k + m + 1 = 7 ∧ cutSize = 6) &&
    (let stR := sizeOfVerticesF g R
     isForbiddenCut ((k : Int) + m + 1) (szOf stR.1 stR.2 ((k : Int) - 1))))

/-- The while(1) search of the length-table loops: the first index ≥ start
satisfying P, found within fuel steps. -/
def findFrom (P : Nat → Bool) : Nat → Nat → Nat
  | 0, k => k
  | fuel + 1, k => if P k then k else findFrom P fuel (k + 1)

/-- calcLowerBoundLengthOuterPath(cutSize) as a function of (p, q); entries
with p = q keep the C++ initial value 0. -/
def lengthTable (g : Graph) (cutSize : Nat) (p q : Nat) : Nat :=
  if p = q then 0
  else if p + 1 = q ∨ (p = g.r - 1 ∧ q = 0) then 1
  else findFrom (fun k => decide (cutSize < k) || !forbiddenCycle g p q k cutSize)
    (cutSize + 2) 0

/-- calcLowerBoundLengthOuterPathOneEdge(cutSize) as a function of (p, q). -/
def lengthOneEdgeTable (g : Graph) (cutSize : Nat) (p q : Nat) : Nat :=
  if p = q then 0
  else if p + 1 = q ∨ (p = g.r - 1 ∧ q = 0) then 1
  else findFrom (fun k => decide (cutSize < k) || !forbiddenCycleOneEdge g p q k cutSize)
    (cutSize + 1) 1

/-- Pointwise update of a function-valued table (one vector store). -/
def upd {α : Type} (f : Nat → α) (i : Nat) (x : α) : Nat → α :=
  fun j => if j = i then x else f j

/-- The contract_set built at the top of shortestPaths: both orientations of
every contracted edge, or empty when after_contract is false. -/
def csetOf (contract : List (Nat × Nat)) (afterContract : Bool) : List (Nat × Nat) :=
  if afterContract then contract ++ contract.map (fun e => (e.2, e.1)) else []

/-- State of the first (0-1 BFS) loop of shortestPaths: the tentative
distances and the deque (head = front). -/
structure DijkState where
  dist : Nat → Nat
  queue : List Nat

/-- One relaxation step: 0-weight edges push to the front of the deque,
1-weight edges to the back, exactly as in the C++ loop body. -/
def relax1 (cset : List (Nat × Nat)) (v : Nat) (st : DijkState) (u : Nat) : DijkState :=
  if cset.contains (u, v) then
    (if st.dist v < st.dist u then ⟨upd st.dist u (st.dist v), u :: st.queue⟩ else st)
  else
    (if st.dist v + 1 < st.dist u then ⟨upd st.dist u (st.dist v + 1), st.queue ++ [u]⟩ else st)

/-- Process all edges out of a popped vertex. -/
def processV1 (g : Graph) (cset : List (Nat × Nat)) (st : DijkState) (v : Nat) : DijkState :=
  (g.nbrs v).foldl (relax1 cset v) st

/-- The first while loop of shortestPaths.  Each iteration strictly decreases
(sum of dist over range n) + (queue length), so a fuel beyond that measure
reaches the empty queue. -/
def bfs01 (g : Graph) (cset : List (Nat × Nat)) : Nat → DijkState → DijkState
  | 0, st => st
  | fuel + 1, st =>
    match st.queue with
    | [] => st
    | v :: rest => bfs01 g cset fuel (processV1 g cset ⟨st.dist, rest⟩ v)

/-- The distance array computed by the first loop of shortestPaths. -/
def dist01 (g : Graph) (cset : List (Nat × Nat)) (s : Nat) : Nat → Nat :=
  (bfs01 g cset (g.n * INF + 2) ⟨fun v => if v = s then 0 else INF, [s]⟩).dist

/-- State of the second loop of shortestPaths: the per-vertex path
collections and the deque. -/
structure PathsState where
  paths : Nat → List (List Nat)
  queue : List Nat

/-- The body of the inner path loop: append path+u to paths[u] unless it is
already there or would revisit u. -/
def extendOne (u : Nat) (acc : List (List Nat)) (p : List Nat) : List (List Nat) :=
  if acc.contains (p ++ [u]) || p.contains u then acc else acc ++ [p ++ [u]]

/-- The DAG-edge admission test of the second loop. -/
def admissibleB (dist : Nat → Nat) (cset : List (Nat × Nat)) (v u : Nat) : Bool :=
  decide (dist u = dist v + 1) || (decide (dist u = dist v) && cset.contains (u, v))

/-- Propagate the paths of v along one admissible edge to u; on any addition
u is pushed (back for a 1-edge, front for a 0-edge). -/
def processEdge2 (dist : Nat → Nat) (cset : List (Nat × Nat)) (v : Nat)
    (st : PathsState) (u : Nat) : PathsState :=
  if admissibleB dist cset v u then
    let newPU := (st.paths v).foldl (extendOne u) (st.paths u)
    if newPU.length = (st.paths u).length then st
    else ⟨upd st.paths u newPU,
          if dist u = dist v + 1 then st.queue ++ [u] else u :: st.queue⟩
  else st

/-- Process all edges out of a popped vertex in the second loop. -/
def processV2 (g : Graph) (dist : Nat → Nat) (cset : List (Nat × Nat))
    (st : PathsState) (v : Nat) : PathsState :=
  (g.nbrs v).foldl (processEdge2 dist cset v) st

/-- The second while loop of shortestPaths. -/
def bfs2 (g : Graph) (dist : Nat → Nat) (cset : List (Nat × Nat)) :
    Nat → PathsState → PathsState
  | 0, st => st
  | fuel + 1, st =>
    match st.queue with
    | [] => st
    | v :: rest => bfs2 g dist cset fuel (processV2 g dist cset ⟨st.paths, rest⟩ v)

/-- An upper bound on the number of duplicate-free vertex sequences over n
vertices; used only to provision fuel for the second loop. -/
def seqBound (n : Nat) : Nat := (n + 1) ^ (n + 1)

/-- Fuel dominating the measure 2*(sum of seqBound - paths sizes) + queue
length of the second loop. -/
def fuel2 (n : Nat) : Nat := 2 * n * seqBound n + 2

/-- The final de-duplication pass of shortestPaths (kept first occurrences). -/
def dedupPaths (l : List (List Nat)) : List (List Nat) :=
  l.foldl (fun acc p => if acc.contains p then acc else acc ++ [p]) []

/-- shortestPaths(s, t, after_contract): every distinct simple shortest path
under the selected (raw or contracted) metric. -/
def shortestPathsF (g : Graph) (contract : List (Nat × Nat)) (s t : Nat)
    (afterContract : Bool) : List (List Nat) :=
  let cset := csetOf contract afterContract
  let dist := dist01 g cset s
  let final := bfs2 g dist cset (fuel2 g.n) ⟨upd (fun _ => []) s [[s]], [s]⟩
  dedupPaths (final.paths t)

/-- The integers lo, lo+1, ..., hi of the C++ pathlen loops (empty when the
Int upper bound is below the lower one). -/
def natsFromTo (lo : Nat) (hi : Int) : List Nat :=
  (List.range (hi + 1 - (lo : Int)).toNat).map (fun i => lo + i)

/-- Mark every component vertex not equivalent to a path vertex (the
equivalent(v, u) call reads dist_contracted_[u][v]). -/
def markReducing (dC : Nat → Nat → Nat) (path component : List Nat)
    (isRed : List Bool) : List Bool :=
  component.foldl (fun acc v =>
    if path.any (fun u => dC u v == 0) then acc else acc.set v true) isRed

/-- Two-path variant of the marking loops. -/
def markReducing2 (dC : Nat → Nat → Nat) (path1 path2 component : List Nat)
    (isRed : List Bool) : List Bool :=
  component.foldl (fun acc v =>
    if path1.any (fun u => dC u v == 0) || path2.any (fun u => dC u v == 0) then acc
    else acc.set v true) isRed

/-- calcReductableVertices1: vertices erased by one contractible ring-to-ring
path. -/
def calcReductableVertices1 (g : Graph) (contract : List (Nat × Nat))
    (dist dC : Nat → Nat → Nat) (cutSize : Nat) (isRed0 : List Bool) : List Bool :=
  (List.range g.r).foldl (fun acc1 p =>
    (List.range g.r).foldl (fun acc2 q =>
      if p = q then acc2
      else
        let plMin : Nat := (max (5 - (dist p q : Int)) 0).toNat
        let plMax : Int := 3 - (dC p q : Int)
        let cpaths := shortestPathsF g contract p q true
        (natsFromTo plMin plMax).foldl (fun acc3 pathlen =>
          if checkShortCycle g p q pathlen cutSize then acc3
          else cpaths.foldl (fun acc4 cpath =>
            if cpath.length - 1 = dist p q then acc4
            else markReducing dC cpath (getComponentF g cpath) acc4) acc3) acc2) acc1) isRed0

/-- The (p1, q1_, p2_, q2_) tuples of the four nested ring loops shared by
calcReductableVertices2/3/4 (the last three indices not yet reduced mod r). -/
def ringQuads (r : Nat) : List (Nat × Nat × Nat × Nat) :=
  ((List.range r).map (fun p1 =>
    (((List.range' (p1 + 1) ((p1 + r) - (p1 + 1))).map (fun q1i =>
      (((List.range' (q1i + 1) ((p1 + r) - (q1i + 1))).map (fun p2i =>
        ((List.range' (p2i + 1) ((p1 + r) - (p2i + 1))).map (fun q2i =>
          (p1, q1i, p2i, q2i))))).flatten))).flatten))).flatten

/-- calcReductableVertices2: vertices erased by two contractible outer paths
(p1 q1 and p2 q2). -/
def calcReductableVertices2 (g : Graph) (contract : List (Nat × Nat))
    (dist dC : Nat → Nat → Nat) (cutSize : Nat) (isRed0 : List Bool) : List Bool :=
  (ringQuads g.r).foldl (fun acc quad =>
    let p1 := quad.1
    let q1 := quad.2.1 % g.r
    let p2 := quad.2.2.1 % g.r
    let q2 := quad.2.2.2 % g.r
    let plMin1 : Nat := (max (5 - (dist p1 q1 : Int)) 0).toNat
    let plMin2 : Nat := (max (5 - (dist p2 q2 : Int)) 0).toNat
    let plMax : Int := 3 - (dC q1 p2 : Int) - (dC q2 p1 : Int)
    if decide (plMax < (plMin1 : Int) ∨ plMax < (plMin2 : Int)) then acc
    else
      let sp1s := shortestPathsF g contract q1 p2 false
      let sp2s := shortestPathsF g contract q2 p1 false
      let cp1s := shortestPathsF g contract q1 p2 true
      let cp2s := shortestPathsF g contract q2 p1 true
      (natsFromTo plMin1 plMax).foldl (fun acc1 pl1 =>
        (natsFromTo plMin2 plMax).foldl (fun acc2 pl2 =>
          if 3 < pl1 + pl2 + dC q1 p2 + dC q2 p1 then acc2
          else if checkShortCycle g p1 q1 pl1 cutSize then acc2
          else if checkShortCycle g p2 q2 pl2 cutSize then acc2
          else if sp1s.any (fun sp1 => sp2s.any (fun sp2 =>
              !canBeAlmostMinimalTwo g.r sp1 sp2 pl1 pl2 cutSize &&
              (let st := sizeOfVerticesTwoF g sp1 sp2
               isForbiddenCut ((sp1.length : Int) + sp2.length - 2 + pl1 + pl2)
                 (szOf st.1 st.2 ((pl1 : Int) + pl2 - 2))))) then acc2
          else cp1s.foldl (fun acc3 cp1 =>
            cp2s.foldl (fun acc4 cp2 =>
              if cp1.length - 1 = dist q1 p2 ∧ cp2.length - 1 = dist q2 p1 then acc4
              else markReducing2 dC cp1 cp2 (getComponentTwoF g cp1 cp2) acc4) acc3) acc2)
          acc1) acc) isRed0

/-- calcLowerBoundCycle with the length tables of the relevant cycle size
passed in. -/
def calcLowerBoundCycle (len lenOE : Nat → Nat → Nat)
    (p1 q1 p2 q2 pathlen1 pathlen2 : Nat) : Int :=
  let Lv : Int := max (len p1 q1 : Int) (2 - (pathlen1 : Int)) +
    max (len p2 q2 : Int) (2 - (pathlen2 : Int))
  let Lh : Int := (len q1 p2 : Int) + (len q2 p1 : Int)
  let L0 : Int :=
    if Lv + pathlen1 + pathlen2 ≤ 5 ∧ Lh + pathlen1 + pathlen2 ≤ 5 then
      Lv + Lh + 6 - pathlen1 - pathlen2 - max Lv Lh
    else Lv + Lh
  let LA : Int :=
    if pathlen1 = 2 then
      let L1v : Int := max (lenOE p1 q1 : Int) 1 + max (len p2 q2 : Int) (2 - (pathlen2 : Int))
      let L1h : Int := min ((len q2 p1 : Int) + lenOE q1 p2) ((lenOE q2 p1 : Int) + len q1 p2)
      let L1 : Int :=
        if L1v + pathlen2 + 1 ≤ 5 ∧ L1h + pathlen2 + 1 ≤ 5 then
          L1v + L1h + 5 - pathlen2 - max L1v L1h
        else L1v + L1h
      let LB := min L0 L1
      if pathlen2 = 1 then
        let L2v : Int := max (len p1 q1 : Int) (2 - (pathlen1 : Int)) + max (lenOE p2 q2 : Int) 2
        let L2h : Int := min ((len q2 p1 : Int) + lenOE q1 p2) ((lenOE q2 p1 : Int) + len q1 p2)
        let L2 : Int :=
          if L2v + pathlen1 ≤ 5 ∧ L2h + pathlen1 ≤ 5 then
            L2v + L2h + 6 - pathlen1 - max L2h L2v
          else L2v + L2h
        min LB L2
      else LB
    else L0
  let LC : Int :=
    if pathlen2 = 2 then
      let L1v : Int := max (len p1 q1 : Int) (2 - (pathlen1 : Int)) + max (lenOE p2 q2 : Int) 1
      let L1h : Int := min ((len q2 p1 : Int) + lenOE q1 p2) ((lenOE q2 p1 : Int) + len q1 p2)
      let L1 : Int :=
        if L1v + pathlen1 + 1 ≤ 5 ∧ L1h + pathlen1 + 1 ≤ 5 then
          L1v + L1h + 5 - pathlen1 - max L1v L1h
        else L1v + L1h
      let LB := min LA L1
      if pathlen1 = 1 then
        let L2v : Int := max (lenOE p1 q1 : Int) 2 + max (len p2 q2 : Int) (2 - (pathlen2 : Int))
        let L2h : Int := min ((len q2 p1 : Int) + lenOE q1 p2) ((lenOE q2 p1 : Int) + len q1 p2)
        let L2 : Int :=
          if L2v + pathlen2 ≤ 5 ∧ L2h + pathlen2 ≤ 5 then
            L2v + L2h + 6 - pathlen2 - max L2v L2h
          else L2v + L2h
        min LB L2
      else LB
    else LA
  if pathlen1 = 3 ∨ pathlen2 = 3 then 0 else LC

/-- calcReductableVertices3: vertices erased by two non-contractible paths;
the stored caches all_paths_ and the length tables equal allPathsF and
lengthTable of the immutable graph, which are used here directly. -/
def calcReductableVertices3 (g : Graph) (contract : List (Nat × Nat))
    (dist dC : Nat → Nat → Nat) (len lenOE : Nat → Nat → Nat) (cutSize : Nat)
    (isRed0 : List Bool) : List Bool :=
  (ringQuads g.r).foldl (fun acc quad =>
    let p1 := quad.1
    if quad.2.1 + 1 = quad.2.2.1 ∧ quad.2.2.2 + 1 = p1 + g.r then acc
    else
      let q1 := quad.2.1 % g.r
      let p2 := quad.2.2.1 % g.r
      let q2 := quad.2.2.2 % g.r
      let plMin1 : Nat := (max (2 - (dC p1 q1 : Int)) 0).toNat
      let plMin2 : Nat := (max (2 - (dC p2 q2 : Int)) 0).toNat
      let plMax : Int := 3 - (dC q1 p2 : Int) - (dC q2 p1 : Int)
      if decide (plMax < (plMin1 : Int) ∨ plMax < (plMin2 : Int)) then acc
      else
        let path1s := allPathsF g q1 p2
        let path2s := allPathsF g q2 p1
        let cp1s := shortestPathsF g contract q1 p2 true
        let cp2s := shortestPathsF g contract q2 p1 true
        (natsFromTo plMin1 plMax).foldl (fun acc1 pl1 =>
          (natsFromTo plMin2 plMax).foldl (fun acc2 pl2 =>
            if 3 < pl1 + pl2 + dC q1 p2 + dC q2 p1 then acc2
            else if (cutSize : Int) < calcLowerBoundCycle len lenOE p1 q1 p2 q2 pl1 pl2 then acc2
            else if path1s.any (fun path1 => path2s.any (fun path2 =>
                let l := pl1 + pl2 + (path1.length - 1) + (path2.length - 1)
                decide (l ≤ 5) &&
                (let st := sizeOfVertices2F g path1 path2
                 let sz := szOf st.1 st.2 ((pl1 : Int) + pl2 - 2)
                 decide ((l ≤ 4 ∧ 0 < sz) ∨ (l = 5 ∧ 1 < sz))))) then acc2
            else cp1s.foldl (fun acc3 cp1 =>
              cp2s.foldl (fun acc4 cp2 =>
                if cp1.length - 1 = dist q1 p2 ∧ cp2.length - 1 = dist q2 p1 then acc4
                else markReducing2 dC cp1 cp2 (getComponent2F g cp1 cp2) acc4) acc3) acc2)
            acc1) acc) isRed0

/-- calcReductableVertices4: one contractible path p1 q1 and one reversed
contractible path q2 p2. -/
def calcReductableVertices4 (g : Graph) (contract : List (Nat × Nat))
    (dist dC : Nat → Nat → Nat) (cutSize : Nat) (isRed0 : List Bool) : List Bool :=
  (ringQuads g.r).foldl (fun acc quad =>
    let p1 := quad.1
    let q1 := quad.2.1 % g.r
    let p2 := quad.2.2.1 % g.r
    let q2 := quad.2.2.2 % g.r
    let plMin1 : Nat := (max (5 - (dist p1 q1 : Int)) 0).toNat
    let plMin2 : Nat := (max (5 - (dist p2 q2 : Int)) 0).toNat
    let plMax : Int := 3 - (dC q1 p2 : Int) - (dC q2 p1 : Int)
    if decide (plMax < (plMin1 : Int) ∨ plMax < (plMin2 : Int)) then acc
    else
      let sp1s := shortestPathsF g contract q1 p2 false
      let sp2s := shortestPathsF g contract q2 p1 false
      let cp1s := shortestPathsF g contract q1 p2 true
      let cp2s := shortestPathsF g contract q2 p1 true
      (natsFromTo plMin1 plMax).foldl (fun acc1 pl1 =>
        (natsFromTo plMin2 plMax).foldl (fun acc2 pl2 =>
          if 3 < pl1 + pl2 + dC q1 p2 + dC q2 p1 then acc2
          else if checkShortCycle g p1 q1 pl1 cutSize then acc2
          else if checkShortCycle g q2 p2 pl2 cutSize then acc2
          else if sp1s.any (fun sp1 => sp2s.any (fun sp2 =>
              !canBeAlmostMinimal2 g.r sp1 sp2 pl1 pl2 cutSize &&
              (let st := sizeOfVertices2F g sp1 sp2
               isForbiddenCut ((sp1.length : Int) + sp2.length - 2 + pl1 + pl2)
                 (szOf st.1 st.2 ((pl1 : Int) + pl2 - 2))))) then acc2
          else cp1s.foldl (fun acc3 cp1 =>
            cp2s.foldl (fun acc4 cp2 =>
              if cp1.length - 1 = dist q1 p2 ∧ cp2.length - 1 = dist q2 p1 then acc4
              else markReducing2 dC cp1 cp2 (getComponent2F g cp1 cp2) acc4) acc3) acc2)
          acc1) acc) isRed0

/-- calcReductableVertices(cutSize): union of the four patterns. -/
def calcReductableVerticesF (g : Graph) (contract : List (Nat × Nat))
    (dist dC : Nat → Nat → Nat) (len lenOE : Nat → Nat → Nat) (cutSize : Nat) : List Bool :=
  calcReductableVertices4 g contract dist dC cutSize
    (calcReductableVertices3 g contract dist dC len lenOE cutSize
      (calcReductableVertices2 g contract dist dC cutSize
        (calcReductableVertices1 g contract dist dC cutSize
          (List.replicate g.n false))))

/-- The cutset of componentIdEquivalence: the chosen vertices closed under
contracted equivalence (equivalent(v, u) reads dist_contracted_[u][v]). -/
def cutClosure (g : Graph) (dC : Nat → Nat → Nat) (cut : List Nat) : List Nat :=
  cut.foldl (fun acc v =>
    (List.range g.n).foldl (fun acc2 u =>
      if dC u v == 0 && !acc2.contains u then acc2 ++ [u] else acc2)
      (if acc.contains v then acc else acc ++ [v])) []

/-- The components of componentIdEquivalence: first the single component
holding everything reachable from the ring, then one component per
still-unlabelled interior vertex. -/
def componentsOf (g : Graph) (cutset : List Nat) : List (List Nat) :=
  let ringComp := componentFrom g cutset ((List.range g.r).filter (fun v => !cutset.contains v))
  (List.range' g.r (g.n - g.r)).foldl (fun comps v =>
    if cutset.contains v || comps.any (fun c => c.contains v) then comps
    else comps ++ [componentFrom g cutset [v]]) [ringComp]

/-- is_ring of calcCutReduction: u is a ring vertex or contracted onto one. -/
def isRingEquiv (g : Graph) (dC : Nat → Nat → Nat) (u : Nat) : Bool :=
  (List.range g.r).any (fun v => dC u v == 0)

/-- calcCutReduction: scan every cut of 1, 2 or 3 chosen vertices (closed
under equivalence) and mark the members of every component without a
ring-equivalent vertex. -/
def calcCutReductionF (g : Graph) (dC : Nat → Nat → Nat) : List Bool :=
  let cuts := ((List.range g.n).map (fun v0 =>
    [[v0]] ++ (((List.range v0).map (fun v1 =>
      [[v0, v1]] ++ ((List.range v1).map (fun v2 => [v0, v1, v2])))).flatten))).flatten
  cuts.foldl (fun acc cut =>
    let cutset := cutClosure g dC cut
    (componentsOf g cutset).foldl (fun acc2 comp =>
      if comp.any (fun v => isRingEquiv g dC v) then acc2
      else comp.foldl (fun acc3 v => acc3.set v true) acc2) acc)
    (List.replicate g.n false)

/-- The mutable state of a Configuration object (immutable graph data
included).  The caches allPaths and the four length tables are written by
the constructor and never touched again. -/
structure Config where
  graph : Graph
  dist : Nat → Nat → Nat
  contract : List (Nat × Nat)
  distContracted : Nat → Nat → Nat
  representative : Nat → Int
  reductableInside : List Bool
  reductableOutside6 : List Bool
  reductableOutside7 : List Bool
  allPaths : Nat → Nat → List (List Nat)
  length6 : Nat → Nat → Nat
  length7 : Nat → Nat → Nat
  lengthOneEdge6 : Nat → Nat → Nat
  lengthOneEdge7 : Nat → Nat → Nat

/-- The Configuration constructor: raw metric, contracted metric equal to it,
representatives, the path cache and the four length tables; the three
reductable masks are merely initialised to all-false (no computation). -/
def mkConfiguration (g : Graph) : Config :=
  { graph := g
    dist := WFdist g []
    contract := []
    distContracted := WFdist g []
    representative := representativeF g.n (WFdist g [])
    reductableInside := List.replicate g.n false
    reductableOutside6 := List.replicate g.n false
    reductableOutside7 := List.replicate g.n false
    allPaths := fun p q => allPathsF g p q
    length6 := lengthTable g 6
    length7 := lengthTable g 7
    lengthOneEdge6 := lengthOneEdgeTable g 6
    lengthOneEdge7 := lengthOneEdgeTable g 7 }

/-- setContract: store the list, recompute the contracted metric, the three
reductable masks and the representatives; everything else is untouched.
The outside masks read the length tables stored at construction time. -/
def Config.setContract (s : Config) (contract : List (Nat × Nat)) : Config :=
  let dC := WFdist s.graph contract
  { s with
    contract := contract
    distContracted := dC
    reductableInside := calcCutReductionF s.graph dC
    reductableOutside6 :=
      calcReductableVerticesF s.graph contract s.dist dC s.length6 s.lengthOneEdge6 6
    reductableOutside7 :=
      calcReductableVerticesF s.graph contract s.dist dC s.length7 s.lengthOneEdge7 7
    representative := representativeF s.graph.n dC }

/-- setContract as fallible code: none models the fatal assertion in WF(true)
when a listed pair is not at distance 1 in the mutated weight matrix. -/
def Config.setContractChecked (s : Config) (contract : List (Nat × Nat)) : Option Config :=
  if WFok s.graph contract then some (s.setContract contract) else none

/-- The number of path edges that are not ring edges (an edge is a ring edge
when both endpoints have index below r); the complement of numberInRing. -/
def nonRingEdges (r : Nat) (path : List Nat) : Nat :=
  (path.zip path.tail).countP (fun e => !(decide (e.1 < r) && decide (e.2 < r)))

/-- Two contract pairs naming the same undirected edge. -/
def samePair (e f : Nat × Nat) : Prop :=
  (e.1 = f.1 ∧ e.2 = f.2) ∨ (e.1 = f.2 ∧ e.2 = f.1)

instance (e f : Nat × Nat) : Decidable (samePair e f) :=
  decidable_of_iff ((e.1 = f.1 ∧ e.2 = f.2) ∨ (e.1 = f.2 ∧ e.2 = f.1)) Iff.rfl

/-- Well-formedness: adjacency lists only mention vertices below n. -/
def NbrsBounded (g : Graph) : Prop := ∀ v, v < g.n → ∀ u ∈ g.nbrs v, u < g.n

/-- Well-formedness: the adjacency relation is symmetric (the file reader
inserts ring-incident edges both ways and relies on the interior
declarations for the rest). -/
def AdjSymm (g : Graph) : Prop := ∀ v, v < g.n → ∀ u, u < g.n → g.adjB v u = g.adjB u v

/-- Well-formedness: no self-loops. -/
def AdjIrrefl (g : Graph) : Prop := ∀ v, v < g.n → g.adjB v v = false

/-- Well-formedness: the adjacency vector has exactly n entries. -/
def AdjLen (g : Graph) : Prop := g.adj.length = g.n

instance (g : Graph) : Decidable (NbrsBounded g) := by
  unfold NbrsBounded
  infer_instance

instance (g : Graph) : Decidable (AdjSymm g) := by
  unfold AdjSymm
  infer_instance

instance (g : Graph) : Decidable (AdjIrrefl g) := by
  unfold AdjIrrefl
  infer_instance

instance (g : Graph) : Decidable (AdjLen g) := by
  unfold AdjLen
  infer_instance

/-- Weight of the directed edge a → b under the selected metric: 0 when the
pair {b, a} is contracted (the C++ loop tests contract_set.count({u, v}) for
the edge v → u), else 1. -/
def wgt (cset : List (Nat × Nat)) (a b : Nat) : Nat :=
  if cset.contains (b, a) then 0 else 1

/-- Total weight of a vertex sequence under the selected metric. -/
def pathWeight (cset : List (Nat × Nat)) : List Nat → Nat
  | a :: b :: rest => wgt cset a b + pathWeight cset (b :: rest)
  | _ => 0

/-- The sequence follows adjacency: each vertex is a declared neighbour of
its predecessor. -/
def IsWalk (g : Graph) (p : List Nat) : Prop :=
  List.Chain' (fun a b => b ∈ g.nbrs a) p

/-- A duplicate-free walk from s to t. -/
def SimplePath (g : Graph) (s t : Nat) (p : List Nat) : Prop :=
  IsWalk g p ∧ p.head? = some s ∧ p.getLast? = some t ∧ p.Nodup

/-- A plain 6-ring with no interior vertex. -/
def ring6 : Graph := ⟨6, 6, [[1, 5], [0, 2], [1, 3], [2, 4], [3, 5], [0, 4]]⟩

/-- A plain 4-ring with no interior vertex. -/
def ring4 : Graph := ⟨4, 4, [[1, 3], [0, 2], [1, 3], [0, 2]]⟩

/-- A 4-ring plus one interior vertex 4 adjacent to the ring vertices
0, 1 and 2: its neighbours form a 3-cut separating it from the ring. -/
def conf5 : Graph := ⟨5, 4, [[1, 3, 4], [0, 2, 4], [1, 3, 4], [0, 2], [0, 1, 2]]⟩

/-- The distance array of the first loop claims value d for v only when some
walk from s realizes d (or d is still the INF sentinel). -/
def Realizes (g : Graph) (cset : List (Nat × Nat)) (s : Nat) (st : DijkState) : Prop :=
  ∀ v, st.dist v = INF ∨ ∃ p, IsWalk g p ∧ p.head? = some s ∧ p.getLast? = some v ∧
    pathWeight cset p = st.dist v

/-- Basic invariant of the first loop of shortestPaths: the source stays at
0, no entry exceeds INF, the deque holds vertices, every entry is realized. -/
def InvA (g : Graph) (cset : List (Nat × Nat)) (s : Nat) (st : DijkState) : Prop :=
  st.dist s = 0 ∧ (∀ v, st.dist v ≤ INF) ∧ (∀ v ∈ st.queue, v < g.n) ∧ Realizes g cset s st

/-- Every edge is relaxed: the fixpoint condition of the first loop. -/
def Relaxed (g : Graph) (cset : List (Nat × Nat)) (dist : Nat → Nat) : Prop :=
  ∀ v, v < g.n → ∀ u ∈ g.nbrs v, dist u ≤ dist v + wgt cset v u

/-- Full invariant of the first loop: InvA, and every vertex either has all
its outgoing edges relaxed or still sits in the deque. -/
def Inv1 (g : Graph) (cset : List (Nat × Nat)) (s : Nat) (st : DijkState) : Prop :=
  InvA g cset s st ∧
  ∀ v, v < g.n → (∀ u ∈ g.nbrs v, st.dist u ≤ st.dist v + wgt cset v u) ∨ v ∈ st.queue

/-- Termination measure of the first loop: total tentative distance plus
deque length; every iteration strictly decreases it. -/
def measure1 (n : Nat) (st : DijkState) : Nat :=
  ((List.range n).map st.dist).sum + st.queue.length

/-- A sequence is admissible for the second loop when every step follows an
edge of the predecessor DAG: distance +1, or equal distance along a
contracted edge. -/
def Adm (g : Graph) (dist : Nat → Nat) (cset : List (Nat × Nat)) (p : List Nat) : Prop :=
  List.Chain' (fun a b => b ∈ g.nbrs a ∧
    (dist b = dist a + 1 ∨ (dist b = dist a ∧ cset.contains (b, a) = true))) p

/-- Vertex v has propagated all its paths along all its admissible
out-edges: the per-vertex fixpoint condition of the second loop. -/
def closureAt (g : Graph) (dist : Nat → Nat) (cset : List (Nat × Nat))
    (st : PathsState) (v : Nat) : Prop :=
  ∀ p ∈ st.paths v, ∀ u ∈ g.nbrs v,
    (dist u = dist v + 1 ∨ (dist u = dist v ∧ cset.contains (u, v) = true)) →
    u ∈ p ∨ p ++ [u] ∈ st.paths u

/-- Core invariant of the second loop of shortestPaths: the trivial path is
present; every stored path is admissible, simple, runs from s to its slot;
the path lists are duplicate-free with vertices below n; the deque holds
vertices. -/
def Inv2core (g : Graph) (dist : Nat → Nat) (cset : List (Nat × Nat)) (s : Nat)
    (st : PathsState) : Prop :=
  ([s] ∈ st.paths s) ∧
  (∀ v p, p ∈ st.paths v → Adm g dist cset p ∧ p.head? = some s ∧ p.getLast? = some v ∧
    p.Nodup) ∧
  (∀ v, (st.paths v).Nodup) ∧
  (∀ v ∈ st.queue, v < g.n) ∧
  (∀ v, ∀ p ∈ st.paths v, ∀ y ∈ p, y < g.n)

/-- Full invariant of the second loop: the core, and every vertex either
satisfies its fixpoint condition or still sits in the deque. -/
def Inv2 (g : Graph) (dist : Nat → Nat) (cset : List (Nat × Nat)) (s : Nat)
    (st : PathsState) : Prop :=
  Inv2core g dist cset s st ∧
  ∀ v, v < g.n → closureAt g dist cset st v ∨ v ∈ st.queue

/-- Base-(n+1) code of a vertex sequence with entries below n; injective, so
the duplicate-free path lists are bounded by seqBound. -/
def encodeSeq (n : Nat) (p : List Nat) : Nat :=
  p.foldr (fun a acc => acc * (n + 1) + (a + 1)) 0

/-- Termination measure of the second loop: twice the total remaining path
capacity plus deque length. -/
def measure2 (n : Nat) (st : PathsState) : Nat :=
  2 * ((List.range n).map (fun v => seqBound n - (st.paths v).length)).sum + st.queue.length

lemma zip_tail_length (path : List Nat) : (path.zip path.tail).length = path.length - 1 := by
  rw [List.length_zip, List.length_tail]
  omega

lemma numberInRing_add_nonRing (r : Nat) (path : List Nat) :
    numberInRing r path + nonRingEdges r path = path.length - 1 := by
  unfold numberInRing nonRingEdges
  rw [← zip_tail_length path, List.length_eq_countP_add_countP
    (fun e => decide (e.1 < r) && decide (e.2 < r))]
  congr 1
  apply List.countP_congr
  intro a _
  simp [decide_not]

/-- C2 (amended): isForbiddenCut is true exactly when the cut size is at most
4 with a nonempty component, or the size is 5, 6 or 7 with a component larger
than 1, 3 or 4 respectively; for sizes above 7 it is false.  (The claim
restricted the first clause to sizes 2..4; the code accepts any size ≤ 4.) -/
theorem isForbiddenCut_iff (k c : Int) :
    isForbiddenCut k c = true ↔
      ((k ≤ 4 ∧ 0 < c) ∨ (k = 5 ∧ 1 < c) ∨ (k = 6 ∧ 3 < c) ∨ (k = 7 ∧ 4 < c)) := by
  unfold isForbiddenCut
  split
  case isTrue h => simp
                   omega
  case isFalse h =>
    split
    case isTrue h5 => simp [h5]
    case isFalse h5 =>
      split
      case isTrue h6 => simp [h6]
      case isFalse h6 =>
        split
        case isTrue h7 => simp [h7]
        case isFalse h7 => simp
                           omega

/-- C2 counterexample: at cut size 1 with component size 1 the code returns
true although 1 lies outside 2..7, where the claim demands false. -/
theorem isForbiddenCut_counterexample :
    isForbiddenCut 1 1 = true ∧
      ¬((2 ≤ (1 : Int) ∧ (1 : Int) ≤ 4 ∧ 0 < (1 : Int)) ∨ ((1 : Int) = 5 ∧ 1 < (1 : Int)) ∨
        ((1 : Int) = 6 ∧ 3 < (1 : Int)) ∨ ((1 : Int) = 7 ∧ 4 < (1 : Int))) := by
  decide

/-- C3 (amended): the single-path canBeAlmostMinimal returns true iff either
every edge of the path is a ring edge and pathlen + k ≥ 6, or at most THREE
edges are not ring edges and pathlen + k = 7 and C = 6.  (The claim said at
most 2 deviations; the code admits up to 3.) -/
theorem canBeAlmostMinimal_iff (r : Nat) (path : List Nat) (k C : Nat) :
    canBeAlmostMinimal r path k C = true ↔
      ((nonRingEdges r path = 0 ∧ 6 ≤ (path.length - 1) + k) ∨
       (nonRingEdges r path ≤ 3 ∧ (path.length - 1) + k = 7 ∧ C = 6)) := by
  have h := numberInRing_add_nonRing r path
  unfold canBeAlmostMinimal
  simp only [decide_eq_true_eq]
  constructor
  · rintro (⟨h1, h2⟩ | ⟨h1, h2, h3⟩)
    · exact Or.inl ⟨by omega, h2⟩
    · exact Or.inr ⟨by omega, h2, h3⟩
  · rintro (⟨h1, h2⟩ | ⟨h1, h2, h3⟩)
    · exact Or.inl ⟨by omega, h2⟩
    · exact Or.inr ⟨by omega, h2, h3⟩

/-- C3 counterexample: for r = 5 the path 0,1,6,7,2 has ring endpoints and
exactly 3 non-ring edges, and with k = 3, C = 6 (pathlen + k = 7) the code
returns true while the claim (at most 2 deviations) demands false. -/
theorem canBeAlmostMinimal_counterexample :
    canBeAlmostMinimal 5 [0, 1, 6, 7, 2] 3 6 = true ∧
      nonRingEdges 5 [0, 1, 6, 7, 2] = 3 ∧ ¬nonRingEdges 5 [0, 1, 6, 7, 2] ≤ 2 ∧
      numberInRing 5 [0, 1, 6, 7, 2] ≠ ([0, 1, 6, 7, 2] : List Nat).length - 1 := by
  decide

set_option maxRecDepth 100000

/-- C1 (amended): checkShortCycle(a,b,k,C) returns true iff SOME cached a-b
path R fails canBeAlmostMinimal and either triggers isForbiddenCut(k+|R|, sz)
with sz = max(s - max(k-1,0) + 1, 0)/2 + t, or hits the special case
((k,|R|) ∈ {(2,3),(1,4)}, s = 2, t = 0, both of (a+1)%r and (a+2)%r of
degree ≤ 4); it returns false otherwise.  (The claim quantified over EVERY
path; the loop returns true at the first offending path.) -/
theorem checkShortCycle_iff (g : Graph) (a b k C : Nat) :
    checkShortCycle g a b k C = true ↔
      ∃ R ∈ allPathsF g a b, ¬canBeAlmostMinimal g.r R k C = true ∧
        (isForbiddenCut ((k : Int) + ((R.length - 1 : Nat) : Int))
            (szOf (sizeOfVerticesF g R).1 (sizeOfVerticesF g R).2 ((k : Int) - 1)) = true ∨
         (((k = 2 ∧ R.length - 1 = 3) ∨ (k = 1 ∧ R.length - 1 = 4)) ∧
          (sizeOfVerticesF g R).1 = 2 ∧ (sizeOfVerticesF g R).2 = 0 ∧
          degreeOf g ((a + 1) % g.r) ≤ 4 ∧ degreeOf g ((a + 2) % g.r) ≤ 4)) := by
  unfold checkShortCycle
  rw [List.any_eq_true]
  constructor
  · rintro ⟨R, hR, h⟩
    rw [Bool.and_eq_true, Bool.or_eq_true] at h
    obtain ⟨h1, h2⟩ := h
    refine ⟨R, hR, by simpa using h1, ?_⟩
    rcases h2 with h2 | h2
    · exact Or.inl h2
    · exact Or.inr (by simpa using h2)
  · rintro ⟨R, hR, h1, h2⟩
    refine ⟨R, hR, ?_⟩
    rw [Bool.and_eq_true, Bool.or_eq_true]
    refine ⟨by simpa using h1, ?_⟩
    rcases h2 with h2 | h2
    · exact Or.inl h2
    · exact Or.inr (by simpa using h2)

/-- C1 counterexample: on the plain 6-ring with a = 0, b = 3, k = 3, C = 6,
every cached path satisfies canBeAlmostMinimal, so the claim (a universally
quantified disjunction) predicts true, but the code returns false. -/
theorem checkShortCycle_counterexample :
    (allPathsF ring6 0 3).all (fun R =>
      canBeAlmostMinimal ring6.r R 3 6 ||
      isForbiddenCut ((3 : Int) + ((R.length - 1 : Nat) : Int))
        (szOf (sizeOfVerticesF ring6 R).1 (sizeOfVerticesF ring6 R).2 ((3 : Int) - 1)) ||
      decide ((((3 : Nat) = 2 ∧ R.length - 1 = 3) ∨ ((3 : Nat) = 1 ∧ R.length - 1 = 4)) ∧
        (sizeOfVerticesF ring6 R).1 = 2 ∧ (sizeOfVerticesF ring6 R).2 = 0 ∧
        degreeOf ring6 ((0 + 1) % ring6.r) ≤ 4 ∧ degreeOf ring6 ((0 + 2) % ring6.r) ≤ 4)) = true ∧
    checkShortCycle ring6 0 3 3 6 = false := by
  decide

/-- C10: setContract writes only the contract list, the contracted metric,
the representatives and the three reductable masks; the graph data (n, r,
adjacency), the raw metric, the path cache and the four length tables of the
Configuration are untouched. -/
theorem setContract_frame (s : Config) (c : List (Nat × Nat)) :
    (s.setContract c).graph = s.graph ∧
    (s.setContract c).dist = s.dist ∧
    (s.setContract c).allPaths = s.allPaths ∧
    (s.setContract c).length6 = s.length6 ∧
    (s.setContract c).length7 = s.length7 ∧
    (s.setContract c).lengthOneEdge6 = s.lengthOneEdge6 ∧
    (s.setContract c).lengthOneEdge7 = s.lengthOneEdge7 :=
  ⟨rfl, rfl, rfl, rfl, rfl, rfl, rfl⟩

/-- C7 (amended): the three reductable masks are recomputed from scratch by
every setContract call and depend only on the currently supplied contract
list (together with the immutable graph, raw metric and construction-time
length tables), never on the previously installed contraction.  Monotonicity
under adding contractions does not hold (see the counterexample): an added
contraction can unset reductableInside[v], for instance by identifying v
with a ring vertex. -/
theorem reductable_masks_history_free (s : Config) (c1 c2 : List (Nat × Nat)) :
    ((s.setContract c1).setContract c2).reductableInside = (s.setContract c2).reductableInside ∧
    ((s.setContract c1).setContract c2).reductableOutside6 = (s.setContract c2).reductableOutside6 ∧
    ((s.setContract c1).setContract c2).reductableOutside7 = (s.setContract c2).reductableOutside7 :=
  ⟨rfl, rfl, rfl⟩

/-- C7 counterexample: on conf5 (interior vertex 4 cut off by the 3-cut
{0,1,2}), reductableInside[4] is true after setContract(∅) but false after
setContract({(0,4)}), although {(0,4)} ⊇ ∅ and (0,4) is an existing edge:
contracting 4 onto ring vertex 0 makes 4 ring-equivalent, so no component
containing it can be reducing. -/
theorem reductableInside_not_monotone :
    ((mkConfiguration conf5).setContract []).reductableInside.getD 4 false = true ∧
    ((mkConfiguration conf5).setContract [(0, 4)]).reductableInside.getD 4 false = false ∧
    WFok conf5 [(0, 4)] = true := by
  decide

/-- C5 counterexample: after setContract({(0,4)}) and then setContract(∅) on
conf5, reductableInside[4] is true (setContract recomputes the masks and the
empty contraction already yields the 3-cut {0,1,2}), while the freshly
constructed Configuration leaves every mask all-false, so the derived states
differ and the mask is not all-false. -/
theorem setContract_empty_not_fresh :
    (((mkConfiguration conf5).setContract [(0, 4)]).setContract []).reductableInside.getD 4 false
        = true ∧
    (mkConfiguration conf5).reductableInside.getD 4 false = false ∧
    WFok conf5 [(0, 4)] = true := by
  decide

lemma findFrom_spec (P : Nat → Bool) :
    ∀ fuel start, (∃ j, j < fuel ∧ P (start + j) = true) →
      P (findFrom P fuel start) = true ∧ start ≤ findFrom P fuel start ∧
      ∀ m, start ≤ m → m < findFrom P fuel start → P m = false := by
  intro fuel
  induction fuel with
  | zero =>
    intro start h
    obtain ⟨j, hj, _⟩ := h
    omega
  | succ fuel ih =>
    intro start h
    cases hs : P start with
    | true =>
      refine ⟨by simp [findFrom, hs], by simp [findFrom, hs], ?_⟩
      intro m h1 h2
      simp [findFrom, hs] at h2
      omega
    | false =>
      have hnext : ∃ j, j < fuel ∧ P (start + 1 + j) = true := by
        obtain ⟨j, hj, hPj⟩ := h
        cases j with
        | zero => rw [Nat.add_zero] at hPj; rw [hs] at hPj; cases hPj
        | succ j =>
          refine ⟨j, by omega, ?_⟩
          have hrw : start + 1 + j = start + (j + 1) := by omega
          rw [hrw]
          exact hPj
      obtain ⟨hP, hge, hmin⟩ := ih (start + 1) hnext
      have heq : findFrom P (fuel + 1) start = findFrom P fuel (start + 1) := by
        simp [findFrom, hs]
      refine ⟨heq ▸ hP, by rw [heq]; omega, ?_⟩
      intro m h1 h3
      rw [heq] at h3
      rcases Nat.eq_or_lt_of_le h1 with h4 | h4
      · exact h4 ▸ hs
      · exact hmin m h4 h3

lemma adjCond_iff (r p q : Nat) (hp : p < r) (hq : q < r) :
    (p + 1 = q ∨ (p = r - 1 ∧ q = 0)) ↔ q = (p + 1) % r := by
  constructor
  · rintro (h | ⟨h1, h2⟩)
    · rw [← h, Nat.mod_eq_of_lt (h ▸ hq)]
    · have hr : p + 1 = r := by omega
      rw [hr, Nat.mod_self, h2]
  · intro h
    by_cases hc : p + 1 < r
    · left
      rw [Nat.mod_eq_of_lt hc] at h
      omega
    · right
      have hr : p + 1 = r := by omega
      rw [hr, Nat.mod_self] at h
      omega

/-- C4: for distinct ring vertices p, q and C ∈ {6,7}: when q is p's ring
successor both table entries are 1; otherwise length_C[p][q] is the least
k ≥ 0 with k > C or forbiddenCycle(p,q,k,C) false, and lengthOneEdge_C[p][q]
the least k ≥ 1 with k > C or forbiddenCycleOneEdge(p,q,k,C) false; both
entries are at most C+1. -/
theorem length_tables_spec (g : Graph) (C p q : Nat) (hC : C = 6 ∨ C = 7)
    (hp : p < g.r) (hq : q < g.r) (hpq : p ≠ q) :
    (q = (p + 1) % g.r → lengthTable g C p q = 1 ∧ lengthOneEdgeTable g C p q = 1) ∧
    (q ≠ (p + 1) % g.r →
      ((C < lengthTable g C p q ∨ forbiddenCycle g p q (lengthTable g C p q) C = false) ∧
        ∀ j, j < lengthTable g C p q → ¬(C < j ∨ forbiddenCycle g p q j C = false)) ∧
      (1 ≤ lengthOneEdgeTable g C p q ∧
        (C < lengthOneEdgeTable g C p q ∨
          forbiddenCycleOneEdge g p q (lengthOneEdgeTable g C p q) C = false) ∧
        ∀ j, 1 ≤ j → j < lengthOneEdgeTable g C p q →
          ¬(C < j ∨ forbiddenCycleOneEdge g p q j C = false))) ∧
    lengthTable g C p q ≤ C + 1 ∧ lengthOneEdgeTable g C p q ≤ C + 1 := by
  have hadj := adjCond_iff g.r p q hp hq
  have key1 : ∀ j, ((decide (C < j) || !forbiddenCycle g p q j C) = true) ↔
      (C < j ∨ forbiddenCycle g p q j C = false) := by
    intro j
    simp [Bool.or_eq_true, decide_eq_true_eq, Bool.not_eq_true']
  have key2 : ∀ j, ((decide (C < j) || !forbiddenCycleOneEdge g p q j C) = true) ↔
      (C < j ∨ forbiddenCycleOneEdge g p q j C = false) := by
    intro j
    simp [Bool.or_eq_true, decide_eq_true_eq, Bool.not_eq_true']
  by_cases hcond : p + 1 = q ∨ (p = g.r - 1 ∧ q = 0)
  · have hqsucc : q = (p + 1) % g.r := hadj.mp hcond
    have e1 : lengthTable g C p q = 1 := by
      unfold lengthTable
      rw [if_neg hpq, if_pos hcond]
    have e2 : lengthOneEdgeTable g C p q = 1 := by
      unfold lengthOneEdgeTable
      rw [if_neg hpq, if_pos hcond]
    refine ⟨fun _ => ⟨e1, e2⟩, fun hne => absurd hqsucc hne, ?_, ?_⟩ <;> omega
  · have hqsucc : q ≠ (p + 1) % g.r := fun h => hcond (hadj.mpr h)
    have e1 : lengthTable g C p q =
        findFrom (fun k => decide (C < k) || !forbiddenCycle g p q k C) (C + 2) 0 := by
      unfold lengthTable
      rw [if_neg hpq, if_neg hcond]
    have e2 : lengthOneEdgeTable g C p q =
        findFrom (fun k => decide (C < k) || !forbiddenCycleOneEdge g p q k C) (C + 1) 1 := by
      unfold lengthOneEdgeTable
      rw [if_neg hpq, if_neg hcond]
    obtain ⟨hP1, hge1, hmin1⟩ :=
      findFrom_spec (fun k => decide (C < k) || !forbiddenCycle g p q k C) (C + 2) 0
        ⟨C + 1, by omega, by simp⟩
    obtain ⟨hP2, hge2, hmin2⟩ :=
      findFrom_spec (fun k => decide (C < k) || !forbiddenCycleOneEdge g p q k C) (C + 1) 1
        ⟨C, by omega, by simp⟩
    have hb1 : lengthTable g C p q ≤ C + 1 := by
      by_contra hgt
      have hfalse := hmin1 (C + 1) (Nat.zero_le _) (by omega)
      simp at hfalse
    have hb2 : lengthOneEdgeTable g C p q ≤ C + 1 := by
      by_contra hgt
      have hfalse := hmin2 (C + 1) (by omega) (by omega)
      simp at hfalse
    refine ⟨fun h => absurd h hqsucc, fun _ => ⟨⟨?_, ?_⟩, ?_, ?_, ?_⟩, hb1, hb2⟩
    · rw [e1]
      exact (key1 _).mp hP1
    · intro j hj hcontra
      have h5 := hmin1 j (Nat.zero_le _) (by rw [← e1]; exact hj)
      have h6 := (key1 j).mpr hcontra
      rw [h5] at h6
      cases h6
    · rw [e2]
      exact hge2
    · rw [e2]
      exact (key2 _).mp hP2
    · intro j hj1 hj2 hcontra
      have h5 := hmin2 j hj1 (by rw [← e2]; exact hj2)
      have h6 := (key2 j).mpr hcontra
      rw [h5] at h6
      cases h6

/-- C4 witness: the theorem instantiated on the plain 6-ring at C = 6,
p = 0, q = 2. -/
theorem length_tables_spec_witness :
    ((6 : Nat) = 6 ∨ (6 : Nat) = 7) ∧ 0 < ring6.r ∧ 2 < ring6.r ∧ (0 : Nat) ≠ 2 ∧
    (((2 : Nat) = (0 + 1) % ring6.r →
        lengthTable ring6 6 0 2 = 1 ∧ lengthOneEdgeTable ring6 6 0 2 = 1) ∧
      ((2 : Nat) ≠ (0 + 1) % ring6.r →
        ((6 < lengthTable ring6 6 0 2 ∨
            forbiddenCycle ring6 0 2 (lengthTable ring6 6 0 2) 6 = false) ∧
          ∀ j, j < lengthTable ring6 6 0 2 →
            ¬(6 < j ∨ forbiddenCycle ring6 0 2 j 6 = false)) ∧
        (1 ≤ lengthOneEdgeTable ring6 6 0 2 ∧
          (6 < lengthOneEdgeTable ring6 6 0 2 ∨
            forbiddenCycleOneEdge ring6 0 2 (lengthOneEdgeTable ring6 6 0 2) 6 = false) ∧
          ∀ j, 1 ≤ j → j < lengthOneEdgeTable ring6 6 0 2 →
            ¬(6 < j ∨ forbiddenCycleOneEdge ring6 0 2 j 6 = false))) ∧
      lengthTable ring6 6 0 2 ≤ 6 + 1 ∧ lengthOneEdgeTable ring6 6 0 2 ≤ 6 + 1) :=
  ⟨Or.inl rfl, by decide, by decide, by decide,
    length_tables_spec ring6 6 0 2 (Or.inl rfl) (by decide) (by decide) (by decide)⟩

lemma samePair_comm (e f : Nat × Nat) : samePair e f ↔ samePair f e := by
  unfold samePair
  tauto

lemma applyContract_eval (d : Nat → Nat → Nat) :
    ∀ (Z : List (Nat × Nat)) (x y : Nat),
      applyContract d Z x y = if ∃ f ∈ Z, samePair (x, y) f then 0 else d x y := by
  intro Z
  induction Z generalizing d with
  | nil => intro x y; simp [applyContract]
  | cons f rest ih =>
    intro x y
    rw [applyContract, ih]
    by_cases h : ∃ f2 ∈ rest, samePair (x, y) f2
    · rw [if_pos h, if_pos ⟨h.choose, List.mem_cons_of_mem f h.choose_spec.1, h.choose_spec.2⟩]
    · rw [if_neg h]
      by_cases h2 : samePair (x, y) f
      · rw [if_pos ⟨f, List.mem_cons_self f rest, h2⟩]
        unfold zeroEdge
        unfold samePair at h2
        simp only at h2
        rw [if_pos h2]
      · rw [if_neg (by
          rintro ⟨f2, hf2, hsp⟩
          rcases List.mem_cons.mp hf2 with rfl | hf2
          · exact h2 hsp
          · exact h ⟨f2, hf2, hsp⟩)]
        unfold zeroEdge
        unfold samePair at h2
        simp only at h2
        rw [if_neg h2]

lemma initDist_eq_one (g : Graph) (x y : Nat) :
    initDist g x y = 1 ↔ g.adjB x y = true := by
  unfold initDist
  split
  case isTrue h => simp [h]
  case isFalse h =>
    split <;> simp_all [INF]

lemma forall_append_singleton (x : Nat × Nat) (Z : List (Nat × Nat)) (e : Nat × Nat) :
    (∀ f ∈ Z ++ [e], ¬samePair x f) ↔ ((∀ f ∈ Z, ¬samePair x f) ∧ ¬samePair x e) := by
  constructor
  · intro h
    exact ⟨fun f hf => h f (List.mem_append_left _ hf),
      h e (List.mem_append_right _ (List.mem_singleton_self e))⟩
  · rintro ⟨h1, h2⟩ f hf
    rcases List.mem_append.mp hf with hf | hf
    · exact h1 f hf
    · rw [List.mem_singleton] at hf
      exact hf ▸ h2

lemma applyContract_app_single (d : Nat → Nat → Nat) :
    ∀ (Z : List (Nat × Nat)) (e : Nat × Nat),
      applyContract d (Z ++ [e]) = zeroEdge (applyContract d Z) e.1 e.2 := by
  intro Z
  induction Z generalizing d with
  | nil => intro e; rfl
  | cons f rest ih => intro e; rw [List.cons_append, applyContract, ih, applyContract]

lemma wfAssertAux_iff (g : Graph) :
    ∀ (c Z : List (Nat × Nat)),
      (wfAssertAux (applyContract (initDist g) Z) c = true ↔
        ((∀ e ∈ c, g.adjB e.1 e.2 = true) ∧
         (∀ e ∈ c, ∀ f ∈ Z, ¬samePair e f) ∧
         List.Pairwise (fun e f => ¬samePair e f) c)) := by
  intro c
  induction c with
  | nil => intro Z; simp [wfAssertAux]
  | cons e rest ih =>
    intro Z
    have hcond : (applyContract (initDist g) Z e.1 e.2 = 1) ↔
        (g.adjB e.1 e.2 = true ∧ ∀ f ∈ Z, ¬samePair e f) := by
      rw [applyContract_eval]
      by_cases h : ∃ f ∈ Z, samePair (e.1, e.2) f
      · rw [if_pos h]
        constructor
        · intro h0; cases h0
        · rintro ⟨_, h2⟩
          obtain ⟨f, hf, hsp⟩ := h
          exact absurd hsp (h2 f hf)
      · rw [if_neg h, initDist_eq_one]
        constructor
        · intro h1
          exact ⟨h1, fun f hf hsp => h ⟨f, hf, hsp⟩⟩
        · exact fun h1 => h1.1
    rw [wfAssertAux]
    by_cases hd : applyContract (initDist g) Z e.1 e.2 = 1
    · rw [if_pos hd]
      obtain ⟨hadj_e, hZ_e⟩ := hcond.mp hd
      rw [show zeroEdge (applyContract (initDist g) Z) e.1 e.2
            = applyContract (initDist g) (Z ++ [e]) from
          (applyContract_app_single (initDist g) Z e).symm]
      rw [ih (Z ++ [e])]
      simp only [List.pairwise_cons, List.mem_cons, forall_eq_or_imp]
      constructor
      · rintro ⟨h1, h2, h3⟩
        refine ⟨⟨hadj_e, h1⟩, ⟨hZ_e, fun x hx f hf =>
          ((forall_append_singleton x Z e).mp (h2 x hx)).1 f hf⟩,
          fun x hx hsp =>
            ((forall_append_singleton x Z e).mp (h2 x hx)).2 ((samePair_comm e x).mp hsp), h3⟩
      · rintro ⟨⟨_, h1⟩, ⟨_, h2⟩, hpw, h3⟩
        refine ⟨h1, fun x hx => (forall_append_singleton x Z e).mpr
          ⟨h2 x hx, fun hsp => hpw x hx ((samePair_comm x e).mp hsp)⟩, h3⟩
    · rw [if_neg hd]
      constructor
      · intro h0; simp at h0
      · rintro ⟨h1, h2, _⟩
        exact absurd (hcond.mpr ⟨h1 e (List.mem_cons_self e rest),
          fun f hf => h2 e (List.mem_cons_self e rest) f hf⟩) hd

/-- C6 (amended): setContract completes without an assertion failure iff
every pair in the contract list names an existing edge of the adjacency AND
no undirected edge is listed twice (an earlier identical pair zeroes the
entry, so the later assert(dist == 1) fails even on an existing edge); a
violation aborts at the assertion in WF. -/
theorem setContract_ok_iff (s : Config) (c : List (Nat × Nat)) :
    (s.setContractChecked c).isSome = true ↔
      ((∀ e ∈ c, s.graph.adjB e.1 e.2 = true) ∧
        List.Pairwise (fun e f => ¬samePair e f) c) := by
  have hchar := wfAssertAux_iff s.graph c []
  rw [show applyContract (initDist s.graph) [] = initDist s.graph from rfl] at hchar
  unfold Config.setContractChecked
  by_cases h : WFok s.graph c = true
  · rw [if_pos h]
    obtain ⟨h1, _, h3⟩ := hchar.mp h
    exact iff_of_true rfl ⟨h1, h3⟩
  · rw [if_neg h]
    constructor
    · intro h0; simp at h0
    · rintro ⟨h1, h3⟩
      exact absurd (hchar.mpr ⟨h1, by simp, h3⟩) h

/-- C6 counterexample: on the plain 4-ring the contract list [(0,1), (0,1)]
names only existing edges, yet setContract aborts at the WF assertion (the
second occurrence finds the entry already zeroed), refuting the claimed
equivalence with each pair being an existing edge. -/
theorem setContract_duplicate_edge :
    (((mkConfiguration ring4).setContractChecked [(0, 1), (0, 1)]).isSome = false) ∧
      ([(0, 1), (0, 1)] : List (Nat × Nat)).all (fun e => ring4.adjB e.1 e.2) = true := by
  decide

lemma fwLoop_diag (d : Nat → Nat → Nat) (hd : ∀ i, d i i = 0) :
    ∀ m i, fwLoop d m i i = 0 := by
  intro m
  induction m with
  | zero => exact hd
  | succ m ih =>
    intro i
    simp only [fwLoop, fwStep]
    rw [ih i]
    omega

lemma fwLoop_symm (d : Nat → Nat → Nat) (hd : ∀ i j, d i j = d j i) :
    ∀ m i j, fwLoop d m i j = fwLoop d m j i := by
  intro m
  induction m with
  | zero => exact hd
  | succ m ih =>
    intro i j
    simp only [fwLoop, fwStep]
    rw [ih i j, ih i m, ih m j]
    omega

lemma fwLoop_triangle (d : Nat → Nat → Nat) (k : Nat) :
    ∀ K, k < K → ∀ i j, fwLoop d K i j ≤ fwLoop d K i k + fwLoop d K k j := by
  intro K
  induction K with
  | zero => omega
  | succ K ih =>
    intro hk i j
    rcases Nat.lt_succ_iff_lt_or_eq.mp hk with hk2 | rfl
    · have h1 := ih hk2 i j
      have h2 := ih hk2 i K
      have h3 := ih hk2 K j
      simp only [fwLoop, fwStep] at h1 h2 h3 ⊢
      omega
    · simp only [fwLoop, fwStep]
      omega

lemma fwLoop_offdiag (d : Nat → Nat → Nat) (hdiag : ∀ i, d i i = 0)
    (hoff : ∀ i j, i ≠ j → 1 ≤ d i j) :
    ∀ m i j, i ≠ j → 1 ≤ fwLoop d m i j := by
  intro m
  induction m with
  | zero => exact hoff
  | succ m ih =>
    intro i j hij
    simp only [fwLoop, fwStep]
    have h1 := ih i j hij
    by_cases hik : i = m
    · have hkj : m ≠ j := fun h => hij (hik.trans h)
      have h2 := ih m j hkj
      have h3 := fwLoop_diag d hdiag m i
      rw [← hik] at h2 ⊢
      rw [hik] at h3
      omega
    · have h2 := ih i m hik
      omega

lemma initDist_diag (g : Graph) (hlen : AdjLen g) (hirr : AdjIrrefl g) :
    ∀ i, initDist g i i = 0 := by
  intro i
  unfold initDist
  by_cases hi : i < g.n
  · rw [hirr i hi]
    simp
  · have hnil : g.nbrs i = [] := by
      unfold Graph.nbrs
      apply List.getD_eq_default
      unfold AdjLen at hlen
      omega
    unfold Graph.adjB
    rw [hnil]
    simp [List.contains]

lemma adjB_false_of_ge (g : Graph) (hlen : AdjLen g) (i j : Nat) (hi : g.n ≤ i) :
    g.adjB i j = false := by
  unfold Graph.adjB Graph.nbrs
  rw [List.getD_eq_default _ _ (by unfold AdjLen at hlen; omega)]
  simp [List.contains]

lemma adjB_false_of_target_ge (g : Graph) (hlen : AdjLen g) (hb : NbrsBounded g)
    (i j : Nat) (hi : i < g.n) (hj : g.n ≤ j) : g.adjB i j = false := by
  cases hB : g.adjB i j with
  | false => rfl
  | true =>
    unfold Graph.adjB at hB
    rw [List.contains_iff_exists_mem_beq] at hB
    obtain ⟨x, hx, hbeq⟩ := hB
    have hxj : j = x := by simpa using hbeq
    have := hb i hi x hx
    omega

lemma initDist_symm (g : Graph) (hlen : AdjLen g) (hb : NbrsBounded g) (hs : AdjSymm g) :
    ∀ i j, initDist g i j = initDist g j i := by
  intro i j
  unfold initDist
  have htail : (if i = j then (0 : Nat) else INF) = (if j = i then 0 else INF) :=
    if_congr eq_comm rfl rfl
  by_cases hi : i < g.n
  · by_cases hj : j < g.n
    · rw [hs i hi j hj]
      exact if_congr Iff.rfl rfl htail
    · rw [adjB_false_of_target_ge g hlen hb i j hi (by omega),
        adjB_false_of_ge g hlen j i (by omega)]
      exact if_congr Iff.rfl rfl htail
  · by_cases hj : j < g.n
    · rw [adjB_false_of_ge g hlen i j (by omega),
        adjB_false_of_target_ge g hlen hb j i hj (by omega)]
      exact if_congr Iff.rfl rfl htail
    · rw [adjB_false_of_ge g hlen i j (by omega),
        adjB_false_of_ge g hlen j i (by omega)]
      exact if_congr Iff.rfl rfl htail

lemma applyContract_symm (d : Nat → Nat → Nat) (hd : ∀ i j, d i j = d j i)
    (Z : List (Nat × Nat)) : ∀ i j, applyContract d Z i j = applyContract d Z j i := by
  intro i j
  rw [applyContract_eval, applyContract_eval]
  have hiff : (∃ f ∈ Z, samePair (i, j) f) ↔ (∃ f ∈ Z, samePair (j, i) f) := by
    constructor <;> rintro ⟨f, hf, hsp⟩ <;> refine ⟨f, hf, ?_⟩ <;>
      unfold samePair at hsp ⊢ <;> tauto
  exact if_congr hiff rfl (hd i j)

lemma applyContract_diag (d : Nat → Nat → Nat) (hd : ∀ i, d i i = 0)
    (Z : List (Nat × Nat)) : ∀ i, applyContract d Z i i = 0 := by
  intro i
  rw [applyContract_eval]
  split
  · rfl
  · exact hd i

/-- C8: on any well-formed adjacency (n entries, targets below n, symmetric,
irreflexive) the contracted metric of any setContract call, and the metric
installed by the constructor (the empty contraction), is symmetric, zero on
the diagonal, and satisfies the triangle inequality through any vertex. -/
theorem distContracted_metric (g : Graph) (contract : List (Nat × Nat))
    (hlen : AdjLen g) (hb : NbrsBounded g) (hs : AdjSymm g) (hirr : AdjIrrefl g)
    (u v w : Nat) (hv : v < g.n) :
    WFdist g contract u v = WFdist g contract v u ∧
    WFdist g contract u u = 0 ∧
    WFdist g contract u w ≤ WFdist g contract u v + WFdist g contract v w := by
  unfold WFdist
  refine ⟨fwLoop_symm _ (applyContract_symm _ (initDist_symm g hlen hb hs) _) _ _ _,
    fwLoop_diag _ (applyContract_diag _ (initDist_diag g hlen hirr) _) _ _,
    fwLoop_triangle _ v g.n hv u w⟩

/-- C8 witness: the theorem instantiated on the plain 4-ring with the
contraction of edge (0,1), at u = 0, v = 1, w = 2. -/
theorem distContracted_metric_witness :
    AdjLen ring4 ∧ NbrsBounded ring4 ∧ AdjSymm ring4 ∧ AdjIrrefl ring4 ∧ 1 < ring4.n ∧
    (WFdist ring4 [(0, 1)] 0 1 = WFdist ring4 [(0, 1)] 1 0 ∧
      WFdist ring4 [(0, 1)] 0 0 = 0 ∧
      WFdist ring4 [(0, 1)] 0 2 ≤ WFdist ring4 [(0, 1)] 0 1 + WFdist ring4 [(0, 1)] 1 2) :=
  ⟨by decide, by decide, by decide, by decide, by decide,
    distContracted_metric ring4 [(0, 1)] (by decide) (by decide) (by decide) (by decide)
      0 1 2 (by decide)⟩

lemma range'_find_eq (p : Nat → Bool) :
    ∀ (len start v : Nat), start ≤ v → v < start + len → p v = true →
      (∀ u, start ≤ u → u < v → p u = false) →
      (List.range' start len).find? p = some v := by
  intro len
  induction len with
  | zero => intro start v h1 h2; omega
  | succ len ih =>
    intro start v h1 h2 h3 h4
    rw [List.range'_succ]
    by_cases hs : start = v
    · rw [← hs] at h3
      rw [List.find?_cons_of_pos _ h3, hs]
    · have hp : p start = false := h4 start (Nat.le_refl _) (by omega)
      rw [List.find?_cons_of_neg _ (by simp [hp])]
      exact ih (start + 1) v (by omega) (by omega) h3 (fun u hu1 hu2 => h4 u (by omega) hu2)

lemma representativeF_id (n : Nat) (dC : Nat → Nat → Nat) (v : Nat) (hv : v < n)
    (hdiag : dC v v = 0) (hoff : ∀ u, u < v → dC u v ≠ 0) :
    representativeF n dC v = (v : Int) := by
  unfold representativeF
  rw [List.range_eq_range', range'_find_eq (fun u => dC u v == 0) n 0 v (Nat.zero_le _)
    (by omega) (by simp [hdiag]) (fun u _ hu => by simp [hoff u hu])]

/-- C5 (amended): after setContract(C) followed by setContract(∅), the
contracted metric equals the raw metric dist of the freshly constructed
Configuration, the representative map equals the fresh one and sends every
vertex to itself, and the three reductable masks equal the masks that
setContract(∅) computes from the graph alone, independent of C.  (They are
NOT the all-false masks of a fresh Configuration: the constructor skips the
cut-reduction computation, see the counterexample.) -/
theorem setContract_empty_resets (g : Graph) (c : List (Nat × Nat))
    (hlen : AdjLen g) (hirr : AdjIrrefl g) :
    (((mkConfiguration g).setContract c).setContract []).distContracted
        = (mkConfiguration g).distContracted ∧
    (((mkConfiguration g).setContract c).setContract []).distContracted
        = (mkConfiguration g).dist ∧
    (((mkConfiguration g).setContract c).setContract []).representative
        = (mkConfiguration g).representative ∧
    (∀ v, v < g.n →
      (((mkConfiguration g).setContract c).setContract []).representative v = (v : Int)) ∧
    (((mkConfiguration g).setContract c).setContract []).reductableInside
        = ((mkConfiguration g).setContract []).reductableInside ∧
    (((mkConfiguration g).setContract c).setContract []).reductableOutside6
        = ((mkConfiguration g).setContract []).reductableOutside6 ∧
    (((mkConfiguration g).setContract c).setContract []).reductableOutside7
        = ((mkConfiguration g).setContract []).reductableOutside7 := by
  have hdiag : ∀ i, WFdist g [] i i = 0 :=
    fwLoop_diag _ (applyContract_diag _ (initDist_diag g hlen hirr) _) _
  have hoff : ∀ i j, i ≠ j → 1 ≤ WFdist g [] i j := by
    intro i j hij
    unfold WFdist
    refine fwLoop_offdiag _ (applyContract_diag _ (initDist_diag g hlen hirr) _) ?_ _ _ _ hij
    intro x y hxy
    show 1 ≤ applyContract (initDist g) [] x y
    unfold applyContract initDist
    cases hB : g.adjB x y with
    | true => simp [hB]
    | false =>
      rw [if_neg (by simp [hB]), if_neg hxy]
      unfold INF
      omega
  refine ⟨rfl, rfl, rfl, ?_, rfl, rfl, rfl⟩
  intro v hv
  show representativeF g.n (WFdist g []) v = (v : Int)
  exact representativeF_id g.n _ v hv (hdiag v) (fun u hu h0 => by
    have := hoff u v (by omega)
    omega)

/-- C5 witness: the reset theorem instantiated on the plain 4-ring with the
intermediate contraction of edge (0,1). -/
theorem setContract_empty_resets_witness :
    AdjLen ring4 ∧ AdjIrrefl ring4 ∧
    ((((mkConfiguration ring4).setContract [(0, 1)]).setContract []).distContracted
        = (mkConfiguration ring4).distContracted ∧
      (((mkConfiguration ring4).setContract [(0, 1)]).setContract []).distContracted
        = (mkConfiguration ring4).dist ∧
      (((mkConfiguration ring4).setContract [(0, 1)]).setContract []).representative
        = (mkConfiguration ring4).representative ∧
      (∀ v, v < ring4.n →
        (((mkConfiguration ring4).setContract [(0, 1)]).setContract []).representative v
          = (v : Int)) ∧
      (((mkConfiguration ring4).setContract [(0, 1)]).setContract []).reductableInside
        = ((mkConfiguration ring4).setContract []).reductableInside ∧
      (((mkConfiguration ring4).setContract [(0, 1)]).setContract []).reductableOutside6
        = ((mkConfiguration ring4).setContract []).reductableOutside6 ∧
      (((mkConfiguration ring4).setContract [(0, 1)]).setContract []).reductableOutside7
        = ((mkConfiguration ring4).setContract []).reductableOutside7) :=
  ⟨by decide, by decide, setContract_empty_resets ring4 [(0, 1)] (by decide) (by decide)⟩

lemma foldl_preserves {α β : Type} {P : β → Prop} (f : β → α → β) (l : List α) (b : β)
    (hb : P b) (h : ∀ x a, a ∈ l → P x → P (f x a)) : P (l.foldl f b) := by
  induction l generalizing b with
  | nil => exact hb
  | cons c rest ih =>
    exact ih (f b c) (h b c (List.mem_cons_self c rest) hb)
      (fun x a ha hx => h x a (List.mem_cons_of_mem c ha) hx)

lemma foldl_establish {α β : Type} (f : β → α → β) (l : List α) (b : β) (Q : β → α → Prop)
    (hstep : ∀ x a, a ∈ l → Q (f x a) a)
    (hstable : ∀ x a a2, Q x a → Q (f x a2) a) :
    ∀ a ∈ l, Q (l.foldl f b) a := by
  induction l generalizing b with
  | nil => intro a ha; cases ha
  | cons c rest ih =>
    intro a ha
    rcases List.mem_cons.mp ha with rfl | ha2
    · exact foldl_preserves f rest (f b a) (hstep b a (List.mem_cons_self a rest))
        (fun x a2 _ hx => hstable x a a2 hx)
    · exact ih (f b c) (fun x a2 ha3 => hstep x a2 (List.mem_cons_of_mem c ha3)) a ha2

lemma pathWeight_cons_head (cset : List (Nat × Nat)) (a b : Nat) (q : List Nat)
    (h : q.head? = some b) : pathWeight cset (a :: q) = wgt cset a b + pathWeight cset q := by
  cases q with
  | nil => cases h
  | cons c rest =>
    rw [List.head?_cons, Option.some_inj] at h
    rw [← h]
    rfl

lemma pathWeight_append_single (cset : List (Nat × Nat)) :
    ∀ (p : List Nat) (v u : Nat), p.getLast? = some v →
      pathWeight cset (p ++ [u]) = pathWeight cset p + wgt cset v u := by
  intro p
  induction p with
  | nil => intro v u h; cases h
  | cons a q ih =>
    intro v u h
    cases q with
    | nil =>
      rw [List.getLast?_singleton, Option.some_inj] at h
      rw [← h]
      show wgt cset a u + 0 = 0 + wgt cset a u
      omega
    | cons b rest =>
      have hlast : (b :: rest).getLast? = some v := by
        rw [← h, List.getLast?_cons_cons]
      have hcons : a :: b :: rest ++ [u] = a :: ((b :: rest) ++ [u]) := rfl
      rw [hcons, pathWeight_cons_head cset a b ((b :: rest) ++ [u]) (by simp),
        ih v u hlast, pathWeight_cons_head cset a b (b :: rest) (by simp)]
      omega

lemma isWalk_append_single (g : Graph) (p : List Nat) (v u : Nat) (hw : IsWalk g p)
    (hl : p.getLast? = some v) (hu : u ∈ g.nbrs v) : IsWalk g (p ++ [u]) := by
  unfold IsWalk at hw ⊢
  rw [List.chain'_append]
  refine ⟨hw, List.chain'_singleton u, ?_⟩
  intro x hx y hy
  rw [hl, Option.mem_def, Option.some_inj] at hx
  rw [List.head?_cons, Option.mem_def, Option.some_inj] at hy
  rw [← hx, ← hy]
  exact hu

lemma head?_append_single {α : Type} (p : List α) (u : α) (h : p ≠ []) :
    (p ++ [u]).head? = p.head? := by
  cases p with
  | nil => cases h rfl
  | cons a q => rfl

lemma sum_map_upd (dist : Nat → Nat) (u w : Nat) :
    ∀ (l : List Nat), u ∈ l → l.Nodup → w ≤ dist u →
      ((l.map (upd dist u w)).sum + dist u = (l.map dist).sum + w) := by
  intro l
  induction l with
  | nil => intro h; cases h
  | cons c rest ih =>
    intro hmem hnd hw
    rw [List.nodup_cons] at hnd
    rcases List.mem_cons.mp hmem with rfl | h2
    · have hrest : rest.map (upd dist u w) = rest.map dist := by
        apply List.map_congr_left
        intro x hx
        have hxu : x ≠ u := fun hxy => hnd.1 (hxy ▸ hx)
        unfold upd
        rw [if_neg hxu]
      rw [List.map_cons, List.map_cons, hrest]
      have huu : upd dist u w u = w := by
        unfold upd
        rw [if_pos rfl]
      rw [huu]
      simp only [List.sum_cons]
      omega
    · have hcu : c ≠ u := fun hcu => hnd.1 (hcu ▸ h2)
      have hmain := ih h2 hnd.2 hw
      rw [List.map_cons, List.map_cons]
      have hcv : upd dist u w c = dist c := by
        unfold upd
        rw [if_neg hcu]
      rw [hcv]
      simp only [List.sum_cons]
      omega

lemma range_sum_le (n bound : Nat) (f : Nat → Nat) (h : ∀ v, f v ≤ bound) :
    ((List.range n).map f).sum ≤ n * bound := by
  induction n with
  | zero => simp
  | succ n ih =>
    rw [List.range_succ, List.map_append, List.sum_append]
    simp only [List.map_cons, List.map_nil, List.sum_cons, List.sum_nil]
    have := h n
    calc ((List.range n).map f).sum + (f n + 0) ≤ n * bound + (bound + 0) := by omega
    _ = (n + 1) * bound := by ring

lemma relax1_char (cset : List (Nat × Nat)) (v : Nat) (st : DijkState) (u : Nat) :
    relax1 cset v st u = st ∨
      (st.dist v + wgt cset v u < st.dist u ∧
        relax1 cset v st u =
          ⟨upd st.dist u (st.dist v + wgt cset v u),
           if cset.contains (u, v) then u :: st.queue else st.queue ++ [u]⟩) := by
  unfold relax1
  split
  case isTrue hc =>
    split
    case isTrue hlt =>
      right
      refine ⟨by unfold wgt; rw [if_pos hc]; omega, ?_⟩
      unfold wgt
      rw [if_pos hc, Nat.add_zero]
    case isFalse hlt => left; rfl
  case isFalse hc =>
    split
    case isTrue hlt =>
      right
      refine ⟨by unfold wgt; rw [if_neg hc]; omega, ?_⟩
      unfold wgt
      rw [if_neg hc]
    case isFalse hlt => left; rfl

lemma relax1_dist_le (cset : List (Nat × Nat)) (v : Nat) (st : DijkState) (u : Nat) :
    ∀ x, (relax1 cset v st u).dist x ≤ st.dist x := by
  intro x
  rcases relax1_char cset v st u with h | ⟨hlt, heq⟩
  · rw [h]
  · rw [heq]
    show upd st.dist u (st.dist v + wgt cset v u) x ≤ st.dist x
    unfold upd
    split
    case isTrue hx => rw [hx]; omega
    case isFalse hx => omega

lemma relax1_dist_v (cset : List (Nat × Nat)) (v : Nat) (st : DijkState) (u : Nat) :
    (relax1 cset v st u).dist v = st.dist v := by
  rcases relax1_char cset v st u with h | ⟨hlt, heq⟩
  · rw [h]
  · rw [heq]
    show upd st.dist u (st.dist v + wgt cset v u) v = st.dist v
    unfold upd
    split
    case isTrue hx => rw [← hx] at hlt; omega
    case isFalse hx => rfl

lemma relax1_queue_mono (cset : List (Nat × Nat)) (v : Nat) (st : DijkState) (u : Nat) :
    ∀ x ∈ st.queue, x ∈ (relax1 cset v st u).queue := by
  intro x hx
  rcases relax1_char cset v st u with h | ⟨hlt, heq⟩
  · rw [h]; exact hx
  · rw [heq]
    show x ∈ (if cset.contains (u, v) then u :: st.queue else st.queue ++ [u])
    split
    · exact List.mem_cons_of_mem u hx
    · exact List.mem_append_left _ hx

lemma relax1_changed_or_queue (cset : List (Nat × Nat)) (v : Nat) (st : DijkState) (u : Nat) :
    ∀ x, (relax1 cset v st u).dist x = st.dist x ∨ x ∈ (relax1 cset v st u).queue := by
  intro x
  rcases relax1_char cset v st u with h | ⟨hlt, heq⟩
  · rw [h]; exact Or.inl rfl
  · rw [heq]
    by_cases hx : x = u
    · right
      show x ∈ (if cset.contains (u, v) then u :: st.queue else st.queue ++ [u])
      split
      · rw [hx]; exact List.mem_cons_self u st.queue
      · rw [hx]; exact List.mem_append_right _ (List.mem_singleton_self u)
    · left
      show upd st.dist u (st.dist v + wgt cset v u) x = st.dist x
      unfold upd
      rw [if_neg hx]

lemma relax1_relaxes (cset : List (Nat × Nat)) (v : Nat) (st : DijkState) (u : Nat) :
    (relax1 cset v st u).dist u ≤ (relax1 cset v st u).dist v + wgt cset v u := by
  rcases relax1_char cset v st u with h | ⟨hlt, heq⟩
  · rw [h]
    unfold relax1 at h
    revert h
    split
    case isTrue hc =>
      split
      case isTrue hlt => intro h; rw [DijkState.mk.injEq] at h; exfalso
                         have := congrFun h.1 u
                         unfold upd at this
                         rw [if_pos rfl] at this
                         omega
      case isFalse hlt => intro _; unfold wgt; rw [if_pos hc]; omega
    case isFalse hc =>
      split
      case isTrue hlt => intro h; rw [DijkState.mk.injEq] at h; exfalso
                         have := congrFun h.1 u
                         unfold upd at this
                         rw [if_pos rfl] at this
                         omega
      case isFalse hlt => intro _; unfold wgt; rw [if_neg hc]; omega
  · rw [heq]
    show upd st.dist u (st.dist v + wgt cset v u) u ≤
      upd st.dist u (st.dist v + wgt cset v u) v + wgt cset v u
    unfold upd
    rw [if_pos rfl]
    split
    case isTrue hv => rw [← hv] at hlt; omega
    case isFalse hv => omega

lemma relax1_InvA (g : Graph) (cset : List (Nat × Nat)) (s v u : Nat) (st : DijkState)
    (hb : NbrsBounded g) (hv : v < g.n) (hu : u ∈ g.nbrs v) (hInv : InvA g cset s st) :
    InvA g cset s (relax1 cset v st u) := by
  obtain ⟨h0, hle, hq, hreal⟩ := hInv
  rcases relax1_char cset v st u with h | ⟨hlt, heq⟩
  · rw [h]; exact ⟨h0, hle, hq, hreal⟩
  · rw [heq]
    have hun : u < g.n := hb v hv u hu
    refine ⟨?_, ?_, ?_, ?_⟩
    · show upd st.dist u (st.dist v + wgt cset v u) s = 0
      unfold upd
      split
      case isTrue hsu => rw [hsu] at h0; omega
      case isFalse hsu => exact h0
    · intro x
      show upd st.dist u (st.dist v + wgt cset v u) x ≤ INF
      unfold upd
      split
      case isTrue hx => have := hle u; omega
      case isFalse hx => exact hle x
    · intro x hx
      show x < g.n
      have hx2 : x ∈ (if cset.contains (u, v) then u :: st.queue else st.queue ++ [u]) := hx
      revert hx2
      split <;> intro hx2
      · rcases List.mem_cons.mp hx2 with rfl | hx3
        · exact hun
        · exact hq x hx3
      · rcases List.mem_append.mp hx2 with hx3 | hx3
        · exact hq x hx3
        · rw [List.mem_singleton] at hx3
          exact hx3 ▸ hun
    · intro x
      show upd st.dist u (st.dist v + wgt cset v u) x = INF ∨
        ∃ p, IsWalk g p ∧ p.head? = some s ∧ p.getLast? = some x ∧
          pathWeight cset p = upd st.dist u (st.dist v + wgt cset v u) x
      by_cases hxu : x = u
      · have hupd : upd st.dist u (st.dist v + wgt cset v u) x = st.dist v + wgt cset v u := by
          unfold upd
          rw [if_pos hxu]
        rw [hupd]
        right
        rcases hreal v with hv2 | ⟨p, hw, hh, hl, hwt⟩
        · exfalso
          have := hle u
          rw [hv2] at hlt
          unfold INF at this hlt
          omega
        · have hpne : p ≠ [] := by
            intro hnil
            rw [hnil] at hl
            cases hl
          refine ⟨p ++ [u], isWalk_append_single g p v u hw hl hu, ?_, ?_, ?_⟩
          · rw [head?_append_single p u hpne]
            exact hh
          · rw [hxu, List.getLast?_concat]
          · rw [pathWeight_append_single cset p v u hl, hwt]
      · have hupd : upd st.dist u (st.dist v + wgt cset v u) x = st.dist x := by
          unfold upd
          rw [if_neg hxu]
        rw [hupd]
        exact hreal x

lemma processV1_InvA (g : Graph) (cset : List (Nat × Nat)) (s v : Nat) (st : DijkState)
    (hb : NbrsBounded g) (hv : v < g.n) (hInv : InvA g cset s st) :
    InvA g cset s (processV1 g cset st v) :=
  foldl_preserves _ _ _ hInv (fun x a ha hx => relax1_InvA g cset s v a x hb hv ha hx)

lemma processV1_dist_le (g : Graph) (cset : List (Nat × Nat)) (v : Nat) (st : DijkState) :
    ∀ x, (processV1 g cset st v).dist x ≤ st.dist x := by
  have h := foldl_preserves (relax1 cset v) (g.nbrs v) st
    (P := fun y => ∀ x, y.dist x ≤ st.dist x) (fun x => Nat.le_refl _)
    (fun y a _ hy x => Nat.le_trans (relax1_dist_le cset v y a x) (hy x))
  exact h

lemma processV1_dist_v (g : Graph) (cset : List (Nat × Nat)) (v : Nat) (st : DijkState) :
    (processV1 g cset st v).dist v = st.dist v := by
  have h := foldl_preserves (relax1 cset v) (g.nbrs v) st
    (P := fun y => y.dist v = st.dist v) rfl
    (fun y a _ hy => (relax1_dist_v cset v y a).trans hy)
  exact h

lemma processV1_queue_mono (g : Graph) (cset : List (Nat × Nat)) (v : Nat) (st : DijkState) :
    ∀ x ∈ st.queue, x ∈ (processV1 g cset st v).queue := by
  have h := foldl_preserves (relax1 cset v) (g.nbrs v) st
    (P := fun y => ∀ x ∈ st.queue, x ∈ y.queue) (fun x hx => hx)
    (fun y a _ hy x hx => relax1_queue_mono cset v y a x (hy x hx))
  exact h

lemma processV1_changed_or_queue (g : Graph) (cset : List (Nat × Nat)) (v : Nat)
    (st : DijkState) :
    ∀ x, (processV1 g cset st v).dist x = st.dist x ∨ x ∈ (processV1 g cset st v).queue := by
  have h := foldl_preserves (relax1 cset v) (g.nbrs v) st
    (P := fun y => ∀ x, y.dist x = st.dist x ∨ x ∈ y.queue) (fun x => Or.inl rfl)
    (fun y a _ hy x => by
      rcases relax1_changed_or_queue cset v y a x with h1 | h1
      · rcases hy x with h2 | h2
        · exact Or.inl (h1.trans h2)
        · exact Or.inr (relax1_queue_mono cset v y a x h2)
      · exact Or.inr h1)
  exact h

lemma processV1_nbrs_relaxed (g : Graph) (cset : List (Nat × Nat)) (v : Nat) (st : DijkState) :
    ∀ u ∈ g.nbrs v,
      (processV1 g cset st v).dist u ≤ (processV1 g cset st v).dist v + wgt cset v u := by
  exact foldl_establish (relax1 cset v) (g.nbrs v) st
    (Q := fun y u => y.dist u ≤ y.dist v + wgt cset v u)
    (fun x a _ => relax1_relaxes cset v x a)
    (fun x a a2 hx => by
      have h1 := relax1_dist_le cset v x a2 a
      have h2 := relax1_dist_v cset v x a2
      omega)

lemma step1_Inv1 (g : Graph) (cset : List (Nat × Nat)) (s v : Nat) (rest : List Nat)
    (st : DijkState) (hb : NbrsBounded g) (hInv : Inv1 g cset s st)
    (hqeq : st.queue = v :: rest) :
    Inv1 g cset s (processV1 g cset ⟨st.dist, rest⟩ v) := by
  obtain ⟨⟨h0, hle, hq, hreal⟩, hclo⟩ := hInv
  have hv : v < g.n := hq v (by rw [hqeq]; exact List.mem_cons_self v rest)
  have hInvA_mid : InvA g cset s ⟨st.dist, rest⟩ :=
    ⟨h0, hle, fun x hx => hq x (by rw [hqeq]; exact List.mem_cons_of_mem v hx), hreal⟩
  constructor
  · exact processV1_InvA g cset s v ⟨st.dist, rest⟩ hb hv hInvA_mid
  · intro w hw
    by_cases hwv : w = v
    · left
      rw [hwv]
      exact processV1_nbrs_relaxed g cset v ⟨st.dist, rest⟩
    · rcases processV1_changed_or_queue g cset v ⟨st.dist, rest⟩ w with hch | hch
      · rcases hclo w hw with hleft | hright
        · left
          intro u hu
          have h1 := processV1_dist_le g cset v ⟨st.dist, rest⟩ u
          have h2 := hleft u hu
          have h3 : (DijkState.mk st.dist rest).dist u = st.dist u := rfl
          have h4 : (DijkState.mk st.dist rest).dist w = st.dist w := rfl
          rw [hch, h4]
          rw [h3] at h1
          omega
        · right
          apply processV1_queue_mono
          show w ∈ rest
          rw [hqeq] at hright
          rcases List.mem_cons.mp hright with h | h
          · exact absurd h hwv
          · exact h
      · right
        exact hch

lemma relax1_measure (n : Nat) (cset : List (Nat × Nat)) (v : Nat) (st : DijkState) (u : Nat)
    (hun : u < n) : measure1 n (relax1 cset v st u) ≤ measure1 n st := by
  rcases relax1_char cset v st u with h | ⟨hlt, heq⟩
  · rw [h]
  · rw [heq]
    unfold measure1
    have hsum := sum_map_upd st.dist u (st.dist v + wgt cset v u) (List.range n)
      (List.mem_range.mpr hun) (List.nodup_range n) (by omega)
    have hq : (if cset.contains (u, v) then u :: st.queue else st.queue ++ [u]).length
        = st.queue.length + 1 := by
      split
      · rfl
      · rw [List.length_append, List.length_singleton]
    show ((List.range n).map (upd st.dist u (st.dist v + wgt cset v u))).sum +
      (if cset.contains (u, v) then u :: st.queue else st.queue ++ [u]).length ≤ _
    rw [hq]
    omega

lemma processV1_measure (g : Graph) (cset : List (Nat × Nat)) (v : Nat) (st : DijkState)
    (hb : NbrsBounded g) (hv : v < g.n) :
    measure1 g.n (processV1 g cset st v) ≤ measure1 g.n st := by
  exact foldl_preserves (relax1 cset v) (g.nbrs v) st
    (P := fun y => measure1 g.n y ≤ measure1 g.n st) (Nat.le_refl _)
    (fun y a ha hy => Nat.le_trans (relax1_measure g.n cset v y a (hb v hv a ha)) hy)

lemma bfs01_spec (g : Graph) (cset : List (Nat × Nat)) (s : Nat) (hb : NbrsBounded g) :
    ∀ fuel st, Inv1 g cset s st → measure1 g.n st < fuel →
      Inv1 g cset s (bfs01 g cset fuel st) ∧ (bfs01 g cset fuel st).queue = [] := by
  intro fuel
  induction fuel with
  | zero =>
    intro st _ h
    omega
  | succ fuel ih =>
    intro st hInv hm
    cases hqeq : st.queue with
    | nil =>
      rw [bfs01, hqeq]
      exact ⟨hInv, hqeq⟩
    | cons v rest =>
      have hv : v < g.n := hInv.1.2.2.1 v (by rw [hqeq]; exact List.mem_cons_self v rest)
      have hstep := step1_Inv1 g cset s v rest st hb hInv hqeq
      have hmeas : measure1 g.n (processV1 g cset ⟨st.dist, rest⟩ v) < fuel := by
        have h1 := processV1_measure g cset v ⟨st.dist, rest⟩ hb hv
        have h2 : measure1 g.n ⟨st.dist, rest⟩ + 1 = measure1 g.n st := by
          unfold measure1
          rw [hqeq]
          show (List.map st.dist (List.range g.n)).sum + rest.length + 1
            = (List.map st.dist (List.range g.n)).sum + (v :: rest).length
          rw [List.length_cons]
          omega
        omega
      rw [bfs01, hqeq]
      exact ih (processV1 g cset ⟨st.dist, rest⟩ v) hstep hmeas

lemma dist01_spec (g : Graph) (cset : List (Nat × Nat)) (s : Nat) (hb : NbrsBounded g)
    (hs : s < g.n) :
    (dist01 g cset s) s = 0 ∧ (∀ v, dist01 g cset s v ≤ INF) ∧
    (∀ v, dist01 g cset s v = INF ∨ ∃ p, IsWalk g p ∧ p.head? = some s ∧
      p.getLast? = some v ∧ pathWeight cset p = dist01 g cset s v) ∧
    Relaxed g cset (dist01 g cset s) := by
  have hInv0 : Inv1 g cset s ⟨fun v => if v = s then 0 else INF, [s]⟩ := by
    refine ⟨⟨(by show (if s = s then (0 : Nat) else INF) = 0; rw [if_pos rfl]), ?_, ?_, ?_⟩, ?_⟩
    · intro v
      show (if v = s then 0 else INF) ≤ INF
      split <;> omega
    · intro v hv
      rw [List.mem_singleton] at hv
      exact hv ▸ hs
    · intro v
      by_cases hvs : v = s
      · right
        refine ⟨[s], List.chain'_singleton s, rfl, ?_, ?_⟩
        · rw [List.getLast?_singleton, hvs]
        · show 0 = (if v = s then 0 else INF)
          rw [if_pos hvs]
      · left
        show (if v = s then 0 else INF) = INF
        rw [if_neg hvs]
    · intro v hv
      by_cases hvs : v = s
      · right
        rw [hvs]
        exact List.mem_singleton_self s
      · left
        intro u hu
        show (if u = s then 0 else INF) ≤ (if v = s then 0 else INF) + wgt cset v u
        rw [if_neg hvs]
        split <;> omega
  have hm0 : measure1 g.n ⟨fun v => if v = s then 0 else INF, [s]⟩ < g.n * INF + 2 := by
    unfold measure1
    have hsum := range_sum_le g.n INF (fun v => if v = s then 0 else INF)
      (fun v => by
        show (if v = s then (0 : Nat) else INF) ≤ INF
        split <;> omega)
    show ((List.range g.n).map (fun v => if v = s then 0 else INF)).sum + [s].length
      < g.n * INF + 2
    rw [List.length_singleton]
    omega
  obtain ⟨⟨⟨h0, hle, _, hreal⟩, hclo⟩, hempty⟩ :=
    bfs01_spec g cset s hb (g.n * INF + 2) ⟨fun v => if v = s then 0 else INF, [s]⟩ hInv0 hm0
  refine ⟨h0, hle, hreal, ?_⟩
  intro v hv u hu
  rcases hclo v hv with h | h
  · exact h u hu
  · rw [hempty] at h
    cases h

lemma dist_le_along_walk (g : Graph) (cset : List (Nat × Nat)) (D : Nat → Nat)
    (hrel : Relaxed g cset D) (hb : NbrsBounded g) :
    ∀ p v w, IsWalk g p → p.head? = some v → p.getLast? = some w → v < g.n →
      D w ≤ D v + pathWeight cset p := by
  intro p
  induction p with
  | nil => intro v w _ h2 _; cases h2
  | cons a q ih =>
    intro v w hw hh hl hvn
    rw [List.head?_cons, Option.some_inj] at hh
    cases q with
    | nil =>
      rw [List.getLast?_singleton, Option.some_inj] at hl
      rw [← hh, ← hl]
      show D a ≤ D a + 0
      omega
    | cons b rest =>
      unfold IsWalk at hw
      rw [List.chain'_cons] at hw
      have hab : b ∈ g.nbrs a := hw.1
      have hbn : b < g.n := hb a (hh ▸ hvn) b hab
      have h1 := ih b w hw.2 rfl (by rw [← hl, List.getLast?_cons_cons]) hbn
      have h2 := hrel a (hh ▸ hvn) b hab
      have h3 : pathWeight cset (a :: b :: rest) = wgt cset a b + pathWeight cset (b :: rest) :=
        rfl
      rw [← hh]
      omega

lemma walk_members_lt (g : Graph) (hb : NbrsBounded g) :
    ∀ p v, IsWalk g p → p.head? = some v → v < g.n → ∀ x ∈ p, x < g.n := by
  intro p
  induction p with
  | nil => intro v _ _ _ x hx; cases hx
  | cons a q ih =>
    intro v hw hh hvn x hx
    rw [List.head?_cons, Option.some_inj] at hh
    rcases List.mem_cons.mp hx with rfl | hx2
    · exact hh ▸ hvn
    · cases q with
      | nil => cases hx2
      | cons b rest =>
        unfold IsWalk at hw
        rw [List.chain'_cons] at hw
        have hbn : b < g.n := hb a (hh ▸ hvn) b hw.1
        exact ih b hw.2 rfl hbn x hx2

lemma pathWeight_cons_ge (cset : List (Nat × Nat)) (x : Nat) (L : List Nat) :
    pathWeight cset L ≤ pathWeight cset (x :: L) := by
  cases L with
  | nil => exact Nat.le_refl _
  | cons b rest =>
    show pathWeight cset (b :: rest) ≤ wgt cset x b + pathWeight cset (b :: rest)
    omega

lemma pathWeight_append_left (cset : List (Nat × Nat)) :
    ∀ (xs p : List Nat), pathWeight cset p ≤ pathWeight cset (xs ++ p) := by
  intro xs
  induction xs with
  | nil => intro p; exact Nat.le_refl _
  | cons x xs ih =>
    intro p
    exact Nat.le_trans (ih p) (pathWeight_cons_ge cset x (xs ++ p))

lemma pathWeight_le_length (cset : List (Nat × Nat)) :
    ∀ p : List Nat, pathWeight cset p ≤ p.length - 1 := by
  intro p
  induction p with
  | nil => exact Nat.le_refl _
  | cons a q ih =>
    cases q with
    | nil => exact Nat.le_refl _
    | cons b rest =>
      show wgt cset a b + pathWeight cset (b :: rest) ≤ (b :: rest).length
      have h1 : wgt cset a b ≤ 1 := by
        unfold wgt
        split <;> omega
      have h2 : (b :: rest).length - 1 + 1 = (b :: rest).length := by
        rw [List.length_cons]
        omega
      omega

lemma nodup_lt_length_le (n : Nat) (l : List Nat) (hnd : l.Nodup) (hlt : ∀ x ∈ l, x < n) :
    l.length ≤ n := by
  have h1 : l.Subperm (List.range n) :=
    hnd.subperm (fun x hx => List.mem_range.mpr (hlt x hx))
  have h2 := h1.length_le
  rw [List.length_range] at h2
  exact h2

lemma walk_to_simple (g : Graph) (cset : List (Nat × Nat)) :
    ∀ (N : Nat) (p : List Nat), p.length ≤ N → IsWalk g p →
      ∃ q, IsWalk g q ∧ q.Nodup ∧ q.head? = p.head? ∧ q.getLast? = p.getLast? ∧
        pathWeight cset q ≤ pathWeight cset p ∧ ∀ x ∈ q, x ∈ p := by
  intro N
  induction N with
  | zero =>
    intro p hlen _
    have hnil : p = [] := List.length_eq_zero.mp (by omega)
    subst hnil
    exact ⟨[], List.chain'_nil, List.nodup_nil, rfl, rfl, Nat.le_refl _,
      fun x hx => (List.not_mem_nil x hx).elim⟩
  | succ N ih =>
    intro p hlen hw
    cases hp : p with
    | nil =>
      exact ⟨[], List.chain'_nil, List.nodup_nil, rfl, rfl, Nat.le_refl _,
        fun x hx => (List.not_mem_nil x hx).elim⟩
    | cons a rest =>
      rw [hp] at hw hlen
      by_cases ha : a ∈ rest
      · obtain ⟨l1, l2, hrest⟩ := List.append_of_mem ha
        have hsplit : a :: rest = (a :: l1) ++ (a :: l2) := by
          rw [hrest]
          rfl
        have hlen2 : (a :: l2).length ≤ N := by
          rw [hrest] at hlen
          rw [List.length_cons, List.length_append, List.length_cons] at hlen
          rw [List.length_cons]
          omega
        have hw2 : IsWalk g (a :: l2) := List.Chain'.suffix hw ⟨a :: l1, hsplit.symm⟩
        obtain ⟨q, hq1, hq2, hq3, hq4, hq5, hq6⟩ := ih (a :: l2) hlen2 hw2
        refine ⟨q, hq1, hq2, by rw [hq3]; rfl, ?_, ?_, ?_⟩
        · rw [hq4, hsplit, List.getLast?_append_of_ne_nil _ (List.cons_ne_nil a l2)]
        · rw [hsplit]
          exact Nat.le_trans hq5 (pathWeight_append_left cset (a :: l1) (a :: l2))
        · intro x hx
          have := hq6 x hx
          rw [hsplit]
          exact List.mem_append_right _ this
      · cases hrest : rest with
        | nil =>
          refine ⟨[a], List.chain'_singleton a, List.nodup_singleton a, rfl, rfl,
            Nat.le_refl _, fun x hx => ?_⟩
          rw [List.mem_singleton] at hx
          rw [hx]
          exact List.mem_cons_self a []
        | cons b rest2 =>
          rw [hrest] at hw hlen ha
          unfold IsWalk at hw
          rw [List.chain'_cons] at hw
          have hlen2 : (b :: rest2).length ≤ N := by
            simp only [List.length_cons] at hlen ⊢
            omega
          obtain ⟨q, hq1, hq2, hq3, hq4, hq5, hq6⟩ := ih (b :: rest2) hlen2 hw.2
          have hqne : q ≠ [] := by
            intro hqnil
            rw [hqnil] at hq3
            cases hq3
          have hqh : q.head? = some b := by rw [hq3]; rfl
          refine ⟨a :: q, ?_, ?_, rfl, ?_, ?_, ?_⟩
          · unfold IsWalk
            rw [List.chain'_cons']
            refine ⟨?_, hq1⟩
            intro y hy
            rw [hqh, Option.mem_def, Option.some_inj] at hy
            exact hy ▸ hw.1
          · rw [List.nodup_cons]
            exact ⟨fun hmem => ha (hq6 a hmem), hq2⟩
          · cases hq : q with
            | nil => exact absurd hq hqne
            | cons c q2 =>
              rw [List.getLast?_cons_cons, ← hq, hq4, List.getLast?_cons_cons]
          · rw [pathWeight_cons_head cset a b q hqh]
            have h3 : pathWeight cset (a :: b :: rest2) =
              wgt cset a b + pathWeight cset (b :: rest2) := rfl
            omega
          · intro x hx
            rcases List.mem_cons.mp hx with rfl | hx2
            · exact List.mem_cons_self x (b :: rest2)
            · exact List.mem_cons_of_mem a (hq6 x hx2)

lemma extendOne_char (u : Nat) (acc : List (List Nat)) (p : List Nat) :
    (extendOne u acc p = acc ∧ (p ++ [u] ∈ acc ∨ u ∈ p)) ∨
    (extendOne u acc p = acc ++ [p ++ [u]] ∧ p ++ [u] ∉ acc ∧ u ∉ p) := by
  unfold extendOne
  split
  case isTrue h =>
    left
    refine ⟨rfl, ?_⟩
    rw [Bool.or_eq_true] at h
    rcases h with h | h
    · exact Or.inl (by simpa using h)
    · exact Or.inr (by simpa using h)
  case isFalse h =>
    right
    rw [Bool.or_eq_true, not_or] at h
    exact ⟨rfl, fun hm => h.1 (by simpa using hm), fun hm => h.2 (by simpa using hm)⟩

lemma extendFold_append (u : Nat) :
    ∀ (pv pu : List (List Nat)), ∃ extras, pv.foldl (extendOne u) pu = pu ++ extras := by
  intro pv
  induction pv with
  | nil => intro pu; exact ⟨[], (List.append_nil pu).symm⟩
  | cons p rest ih =>
    intro pu
    show ∃ extras, rest.foldl (extendOne u) (extendOne u pu p) = pu ++ extras
    rcases extendOne_char u pu p with ⟨he, _⟩ | ⟨he, _⟩
    · rw [he]
      exact ih pu
    · rw [he]
      obtain ⟨extras2, hex⟩ := ih (pu ++ [p ++ [u]])
      exact ⟨[p ++ [u]] ++ extras2, by rw [hex, List.append_assoc]⟩

lemma extendFold_mem_mono (u : Nat) (pv pu : List (List Nat)) :
    ∀ q ∈ pu, q ∈ pv.foldl (extendOne u) pu := by
  intro q hq
  obtain ⟨extras, hex⟩ := extendFold_append u pv pu
  rw [hex]
  exact List.mem_append_left _ hq

lemma extendFold_covers (u : Nat) :
    ∀ (pv pu : List (List Nat)), ∀ p ∈ pv, u ∈ p ∨ p ++ [u] ∈ pv.foldl (extendOne u) pu := by
  intro pv
  induction pv with
  | nil => intro pu p hp; cases hp
  | cons p0 rest ih =>
    intro pu p hp
    rcases List.mem_cons.mp hp with rfl | hp2
    · show u ∈ p ∨ p ++ [u] ∈ rest.foldl (extendOne u) (extendOne u pu p)
      by_cases hu : u ∈ p
      · exact Or.inl hu
      · right
        apply extendFold_mem_mono
        rcases extendOne_char u pu p with ⟨he, hin⟩ | ⟨he, _⟩
        · rw [he]
          rcases hin with h | h
          · exact h
          · exact absurd h hu
        · rw [he]
          exact List.mem_append_right _ (List.mem_singleton_self _)
    · exact ih (extendOne u pu p0) p hp2

lemma extendFold_new (u : Nat) :
    ∀ (pv pu : List (List Nat)) (q : List Nat), q ∈ pv.foldl (extendOne u) pu →
      q ∈ pu ∨ ∃ p ∈ pv, q = p ++ [u] ∧ u ∉ p := by
  intro pv
  induction pv with
  | nil => intro pu q hq; exact Or.inl hq
  | cons p0 rest ih =>
    intro pu q hq
    have hq2 : q ∈ rest.foldl (extendOne u) (extendOne u pu p0) := hq
    rcases ih (extendOne u pu p0) q hq2 with h | ⟨p, hp, hpq⟩
    · rcases extendOne_char u pu p0 with ⟨he, _⟩ | ⟨he, hnot⟩
      · rw [he] at h
        exact Or.inl h
      · rw [he] at h
        rcases List.mem_append.mp h with h2 | h2
        · exact Or.inl h2
        · rw [List.mem_singleton] at h2
          exact Or.inr ⟨p0, List.mem_cons_self p0 rest, h2, hnot.2⟩
    · exact Or.inr ⟨p, List.mem_cons_of_mem p0 hp, hpq⟩

lemma extendFold_nodup (u : Nat) :
    ∀ (pv pu : List (List Nat)), pu.Nodup → (pv.foldl (extendOne u) pu).Nodup := by
  intro pv
  induction pv with
  | nil => intro pu h; exact h
  | cons p0 rest ih =>
    intro pu h
    show (rest.foldl (extendOne u) (extendOne u pu p0)).Nodup
    apply ih
    rcases extendOne_char u pu p0 with ⟨he, _⟩ | ⟨he, hnot⟩
    · rw [he]; exact h
    · rw [he, List.nodup_append]
      refine ⟨h, List.nodup_singleton _, ?_⟩
      intro a ha hmem
      rw [List.mem_singleton] at hmem
      rw [hmem] at ha
      exact hnot.1 ha

lemma extendFold_len_eq (u : Nat) (pv pu : List (List Nat))
    (h : (pv.foldl (extendOne u) pu).length = pu.length) : pv.foldl (extendOne u) pu = pu := by
  obtain ⟨extras, hex⟩ := extendFold_append u pv pu
  rw [hex] at h ⊢
  rw [List.length_append] at h
  have hz : extras = [] := List.length_eq_zero.mp (by omega)
  rw [hz, List.append_nil]

lemma processEdge2_char (dist : Nat → Nat) (cset : List (Nat × Nat)) (v : Nat)
    (st : PathsState) (u : Nat) :
    processEdge2 dist cset v st u = st ∨
      ((dist u = dist v + 1 ∨ (dist u = dist v ∧ cset.contains (u, v) = true)) ∧
       (st.paths u).length < ((st.paths v).foldl (extendOne u) (st.paths u)).length ∧
       processEdge2 dist cset v st u =
         ⟨upd st.paths u ((st.paths v).foldl (extendOne u) (st.paths u)),
          if dist u = dist v + 1 then st.queue ++ [u] else u :: st.queue⟩) := by
  unfold processEdge2
  by_cases hadm : admissibleB dist cset v u = true
  · rw [if_pos hadm]
    by_cases hlen :
        ((st.paths v).foldl (extendOne u) (st.paths u)).length = (st.paths u).length
    · left
      show (if ((st.paths v).foldl (extendOne u) (st.paths u)).length = (st.paths u).length
          then st
          else (⟨upd st.paths u ((st.paths v).foldl (extendOne u) (st.paths u)),
            if dist u = dist v + 1 then st.queue ++ [u] else u :: st.queue⟩ : PathsState)) = st
      rw [if_pos hlen]
    · right
      refine ⟨?_, ?_, ?_⟩
      · unfold admissibleB at hadm
        rw [Bool.or_eq_true, Bool.and_eq_true] at hadm
        rcases hadm with h | ⟨h1, h2⟩
        · exact Or.inl (by simpa using h)
        · exact Or.inr ⟨by simpa using h1, h2⟩
      · obtain ⟨extras, hex⟩ := extendFold_append u (st.paths v) (st.paths u)
        rw [hex, List.length_append] at hlen ⊢
        rcases Nat.eq_zero_or_pos extras.length with h | h
        · exact absurd (by omega) hlen
        · omega
      · show (if ((st.paths v).foldl (extendOne u) (st.paths u)).length = (st.paths u).length
            then st
            else (⟨upd st.paths u ((st.paths v).foldl (extendOne u) (st.paths u)),
              if dist u = dist v + 1 then st.queue ++ [u] else u :: st.queue⟩ : PathsState)) = _
        rw [if_neg hlen]
  · rw [if_neg hadm]
    left
    rfl
lemma upd_self {α : Type} (f : Nat → α) (i : Nat) (x : α) : upd f i x i = x := by
  unfold upd
  rw [if_pos rfl]

lemma upd_ne {α : Type} (f : Nat → α) (i : Nat) (x : α) (j : Nat) (h : j ≠ i) :
    upd f i x j = f j := by
  unfold upd
  rw [if_neg h]

lemma chain'_append_single {α : Type} (R : α → α → Prop) (p : List α) (v u : α)
    (hw : List.Chain' R p) (hl : p.getLast? = some v) (h : R v u) :
    List.Chain' R (p ++ [u]) := by
  rw [List.chain'_append]
  refine ⟨hw, List.chain'_singleton u, ?_⟩
  intro x hx y hy
  rw [hl, Option.mem_def, Option.some_inj] at hx
  rw [List.head?_cons, Option.mem_def, Option.some_inj] at hy
  rw [← hx, ← hy]
  exact h

lemma getLast?_append_single {α : Type} (p : List α) (u : α) :
    (p ++ [u]).getLast? = some u := by
  rw [List.getLast?_append_of_ne_nil _ (List.cons_ne_nil u [])]
  rfl

lemma extendFold_fix (u : Nat) :
    ∀ (pv pu : List (List Nat)), (∀ p ∈ pv, u ∈ p) → pv.foldl (extendOne u) pu = pu := by
  intro pv
  induction pv with
  | nil => intro pu _; rfl
  | cons p rest ih =>
    intro pu h
    show rest.foldl (extendOne u) (extendOne u pu p) = pu
    have he : extendOne u pu p = pu := by
      unfold extendOne
      rw [if_pos]
      rw [Bool.or_eq_true]
      right
      simpa using h p (List.mem_cons_self p rest)
    rw [he]
    exact ih pu (fun q hq => h q (List.mem_cons_of_mem p hq))

lemma processEdge2_paths_mono (dist : Nat → Nat) (cset : List (Nat × Nat)) (v u w : Nat)
    (st : PathsState) :
    ∀ q ∈ st.paths w, q ∈ (processEdge2 dist cset v st u).paths w := by
  intro q hq
  rcases processEdge2_char dist cset v st u with h | ⟨_, _, h⟩
  · rw [h]
    exact hq
  · rw [h]
    show q ∈ upd st.paths u ((st.paths v).foldl (extendOne u) (st.paths u)) w
    by_cases hw : w = u
    · subst hw
      rw [upd_self]
      exact extendFold_mem_mono w _ _ q hq
    · rw [upd_ne _ _ _ _ hw]
      exact hq

lemma processEdge2_paths_other (dist : Nat → Nat) (cset : List (Nat × Nat)) (v u w : Nat)
    (st : PathsState) (hw : w ≠ u) :
    (processEdge2 dist cset v st u).paths w = st.paths w := by
  rcases processEdge2_char dist cset v st u with h | ⟨_, _, h⟩
  · rw [h]
  · rw [h]
    show upd st.paths u ((st.paths v).foldl (extendOne u) (st.paths u)) w = st.paths w
    rw [upd_ne _ _ _ _ hw]

lemma processEdge2_paths_v (dist : Nat → Nat) (cset : List (Nat × Nat)) (v u : Nat)
    (st : PathsState) (hv : ∀ p ∈ st.paths v, v ∈ p) :
    (processEdge2 dist cset v st u).paths v = st.paths v := by
  by_cases hvu : v = u
  · rcases processEdge2_char dist cset v st u with h | ⟨_, hlen, h⟩
    · rw [h]
    · exfalso
      rw [← hvu] at hlen
      rw [extendFold_fix v (st.paths v) (st.paths v) hv] at hlen
      omega
  · exact processEdge2_paths_other dist cset v u v st hvu

lemma processEdge2_queue_mono (dist : Nat → Nat) (cset : List (Nat × Nat)) (v u : Nat)
    (st : PathsState) :
    ∀ w ∈ st.queue, w ∈ (processEdge2 dist cset v st u).queue := by
  intro w hw
  rcases processEdge2_char dist cset v st u with h | ⟨_, _, h⟩
  · rw [h]
    exact hw
  · rw [h]
    show w ∈ (if dist u = dist v + 1 then st.queue ++ [u] else u :: st.queue)
    split
    · exact List.mem_append_left _ hw
    · exact List.mem_cons_of_mem u hw

lemma processEdge2_queue_sub (dist : Nat → Nat) (cset : List (Nat × Nat)) (v u : Nat)
    (st : PathsState) :
    ∀ w ∈ (processEdge2 dist cset v st u).queue, w ∈ st.queue ∨ w = u := by
  intro w hw
  rcases processEdge2_char dist cset v st u with h | ⟨_, _, h⟩
  · rw [h] at hw
    exact Or.inl hw
  · rw [h] at hw
    have hw2 : w ∈ (if dist u = dist v + 1 then st.queue ++ [u] else u :: st.queue) := hw
    split at hw2
    · rcases List.mem_append.mp hw2 with h2 | h2
      · exact Or.inl h2
      · exact Or.inr (List.mem_singleton.mp h2)
    · rcases List.mem_cons.mp hw2 with h2 | h2
      · exact Or.inr h2
      · exact Or.inl h2

lemma processEdge2_paths_new (dist : Nat → Nat) (cset : List (Nat × Nat)) (v u w : Nat)
    (st : PathsState) :
    ∀ q ∈ (processEdge2 dist cset v st u).paths w,
      q ∈ st.paths w ∨ (w = u ∧ ∃ p ∈ st.paths v, q = p ++ [u] ∧ u ∉ p ∧
        (dist u = dist v + 1 ∨ (dist u = dist v ∧ cset.contains (u, v) = true))) := by
  intro q hq
  rcases processEdge2_char dist cset v st u with h | ⟨hadm, _, h⟩
  · rw [h] at hq
    exact Or.inl hq
  · rw [h] at hq
    have hq2 : q ∈ upd st.paths u ((st.paths v).foldl (extendOne u) (st.paths u)) w := hq
    by_cases hw : w = u
    · subst hw
      rw [upd_self] at hq2
      rcases extendFold_new w (st.paths v) (st.paths w) q hq2 with h2 | ⟨p, hp, hpq, hnu⟩
      · exact Or.inl h2
      · exact Or.inr ⟨rfl, p, hp, hpq, hnu, hadm⟩
    · rw [upd_ne _ _ _ _ hw] at hq2
      exact Or.inl hq2

lemma processEdge2_core (g : Graph) (dist : Nat → Nat) (cset : List (Nat × Nat)) (s v u : Nat)
    (st : PathsState) (hv : v < g.n) (hu : u ∈ g.nbrs v) (hb : NbrsBounded g)
    (hc : Inv2core g dist cset s st) :
    Inv2core g dist cset s (processEdge2 dist cset v st u) := by
  obtain ⟨h1, h2, h3, h4, h5⟩ := hc
  have hun : u < g.n := hb v hv u hu
  refine ⟨processEdge2_paths_mono dist cset v u s st [s] h1, ?_, ?_, ?_, ?_⟩
  · intro w p hp
    rcases processEdge2_paths_new dist cset v u w st p hp with h | ⟨hwu, p0, hp0, hpq, hnu, hadm⟩
    · exact h2 w p h
    · subst hwu
      subst hpq
      obtain ⟨hAdm0, hh0, hl0, hnd0⟩ := h2 v p0 hp0
      refine ⟨?_, ?_, ?_, ?_⟩
      · unfold Adm at hAdm0 ⊢
        have hvl : ∃ vl, p0.getLast? = some vl ∧ vl = v := ⟨v, hl0, rfl⟩
        exact chain'_append_single _ p0 v w hAdm0 hl0 ⟨hu, hadm⟩
      · rw [head?_append_single p0 w (fun hnil => by rw [hnil] at hh0; cases hh0)]
        exact hh0
      · exact getLast?_append_single p0 w
      · rw [List.nodup_append]
        exact ⟨hnd0, List.nodup_singleton w, fun a ha hmem => by
          rw [List.mem_singleton] at hmem
          rw [hmem] at ha
          exact hnu ha⟩
  · intro w
    rcases processEdge2_char dist cset v st u with h | ⟨_, _, h⟩
    · rw [h]
      exact h3 w
    · rw [h]
      show (upd st.paths u ((st.paths v).foldl (extendOne u) (st.paths u)) w).Nodup
      by_cases hw : w = u
      · subst hw
        rw [upd_self]
        exact extendFold_nodup w _ _ (h3 w)
      · rw [upd_ne _ _ _ _ hw]
        exact h3 w
  · intro w hw
    rcases processEdge2_queue_sub dist cset v u st w hw with h | h
    · exact h4 w h
    · exact h ▸ hun
  · intro w p hp y hy
    rcases processEdge2_paths_new dist cset v u w st p hp with h | ⟨_, p0, hp0, hpq, _, _⟩
    · exact h5 w p h y hy
    · subst hpq
      rcases List.mem_append.mp hy with h2 | h2
      · exact h5 v p0 hp0 y h2
      · rw [List.mem_singleton] at h2
        exact h2 ▸ hun
lemma getLast?_mem {α : Type} : ∀ (l : List α) (a : α), l.getLast? = some a → a ∈ l := by
  intro l
  induction l with
  | nil => intro a h; cases h
  | cons b q ih =>
    intro a h
    cases q with
    | nil =>
      rw [List.getLast?_singleton, Option.some_inj] at h
      rw [h]
      exact List.mem_singleton_self a
    | cons c rest =>
      rw [List.getLast?_cons_cons] at h
      exact List.mem_cons_of_mem b (ih a h)

lemma admissibleB_iff (dist : Nat → Nat) (cset : List (Nat × Nat)) (v u : Nat) :
    admissibleB dist cset v u = true ↔
      (dist u = dist v + 1 ∨ (dist u = dist v ∧ cset.contains (u, v) = true)) := by
  unfold admissibleB
  rw [Bool.or_eq_true, Bool.and_eq_true]
  constructor
  · intro h
    rcases h with h | ⟨h1, h2⟩
    · exact Or.inl (by simpa using h)
    · exact Or.inr ⟨by simpa using h1, h2⟩
  · intro h
    rcases h with h | ⟨h1, h2⟩
    · exact Or.inl (by simpa using h)
    · exact Or.inr ⟨by simpa using h1, h2⟩

lemma processEdge2_covers (dist : Nat → Nat) (cset : List (Nat × Nat)) (v u : Nat)
    (st : PathsState)
    (hadm : dist u = dist v + 1 ∨ (dist u = dist v ∧ cset.contains (u, v) = true)) :
    ∀ p ∈ st.paths v, u ∈ p ∨ p ++ [u] ∈ (processEdge2 dist cset v st u).paths u := by
  intro p hp
  have hadmB : admissibleB dist cset v u = true := (admissibleB_iff dist cset v u).mpr hadm
  unfold processEdge2
  rw [if_pos hadmB]
  by_cases hlen :
      ((st.paths v).foldl (extendOne u) (st.paths u)).length = (st.paths u).length
  · have hgoal : u ∈ p ∨ p ++ [u] ∈
        ((if ((st.paths v).foldl (extendOne u) (st.paths u)).length = (st.paths u).length
          then st
          else (⟨upd st.paths u ((st.paths v).foldl (extendOne u) (st.paths u)),
            if dist u = dist v + 1 then st.queue ++ [u] else u :: st.queue⟩ : PathsState)) :
          PathsState).paths u := by
      rw [if_pos hlen]
      rcases extendFold_covers u (st.paths v) (st.paths u) p hp with h | h
      · exact Or.inl h
      · rw [extendFold_len_eq u (st.paths v) (st.paths u) hlen] at h
        exact Or.inr h
    exact hgoal
  · have hgoal : u ∈ p ∨ p ++ [u] ∈
        ((if ((st.paths v).foldl (extendOne u) (st.paths u)).length = (st.paths u).length
          then st
          else (⟨upd st.paths u ((st.paths v).foldl (extendOne u) (st.paths u)),
            if dist u = dist v + 1 then st.queue ++ [u] else u :: st.queue⟩ : PathsState)) :
          PathsState).paths u := by
      rw [if_neg hlen]
      rcases extendFold_covers u (st.paths v) (st.paths u) p hp with h | h
      · exact Or.inl h
      · right
        show p ++ [u] ∈ upd st.paths u ((st.paths v).foldl (extendOne u) (st.paths u)) u
        rw [upd_self]
        exact h
    exact hgoal

lemma processFold2_paths_mono (dist : Nat → Nat) (cset : List (Nat × Nat)) (v : Nat) :
    ∀ (l : List Nat) (st : PathsState) (w : Nat) (q : List Nat),
      q ∈ st.paths w → q ∈ (l.foldl (processEdge2 dist cset v) st).paths w := by
  intro l
  induction l with
  | nil => intro st w q hq; exact hq
  | cons u rest ih =>
    intro st w q hq
    exact ih (processEdge2 dist cset v st u) w q
      (processEdge2_paths_mono dist cset v u w st q hq)

lemma processFold2_queue_mono (dist : Nat → Nat) (cset : List (Nat × Nat)) (v : Nat) :
    ∀ (l : List Nat) (st : PathsState) (w : Nat),
      w ∈ st.queue → w ∈ (l.foldl (processEdge2 dist cset v) st).queue := by
  intro l
  induction l with
  | nil => intro st w hq; exact hq
  | cons u rest ih =>
    intro st w hq
    exact ih (processEdge2 dist cset v st u) w
      (processEdge2_queue_mono dist cset v u st w hq)

lemma processFold2_paths_v (dist : Nat → Nat) (cset : List (Nat × Nat)) (v : Nat) :
    ∀ (l : List Nat) (st : PathsState), (∀ p ∈ st.paths v, v ∈ p) →
      (l.foldl (processEdge2 dist cset v) st).paths v = st.paths v := by
  intro l
  induction l with
  | nil => intro st _; rfl
  | cons u rest ih =>
    intro st hv
    have h1 : (processEdge2 dist cset v st u).paths v = st.paths v :=
      processEdge2_paths_v dist cset v u st hv
    have h2 := ih (processEdge2 dist cset v st u) (by rw [h1]; exact hv)
    show (rest.foldl (processEdge2 dist cset v) (processEdge2 dist cset v st u)).paths v
      = st.paths v
    rw [h2, h1]

lemma processFold2_closure (dist : Nat → Nat) (cset : List (Nat × Nat)) (v : Nat) :
    ∀ (l : List Nat) (st : PathsState), (∀ p ∈ st.paths v, v ∈ p) →
      ∀ u ∈ l, (dist u = dist v + 1 ∨ (dist u = dist v ∧ cset.contains (u, v) = true)) →
        ∀ p ∈ st.paths v, u ∈ p ∨ p ++ [u] ∈ (l.foldl (processEdge2 dist cset v) st).paths u := by
  intro l
  induction l with
  | nil => intro st _ u hu; cases hu
  | cons u0 rest ih =>
    intro st hv u hu hadm p hp
    have h1 : (processEdge2 dist cset v st u0).paths v = st.paths v :=
      processEdge2_paths_v dist cset v u0 st hv
    rcases List.mem_cons.mp hu with rfl | hu2
    · rcases processEdge2_covers dist cset v u st hadm p hp with h | h
      · exact Or.inl h
      · right
        exact processFold2_paths_mono dist cset v rest (processEdge2 dist cset v st u) u
          (p ++ [u]) h
    · have := ih (processEdge2 dist cset v st u0) (by rw [h1]; exact hv) u hu2 hadm p
        (by rw [h1]; exact hp)
      exact this

lemma processEdge2_closure_pres (g : Graph) (dist : Nat → Nat) (cset : List (Nat × Nat))
    (v u w : Nat) (st : PathsState)
    (h : closureAt g dist cset st w ∨ w ∈ st.queue) :
    closureAt g dist cset (processEdge2 dist cset v st u) w ∨
      w ∈ (processEdge2 dist cset v st u).queue := by
  rcases processEdge2_char dist cset v st u with hch | ⟨_, _, hch⟩
  · rw [hch]
    exact h
  · by_cases hwu : w = u
    · right
      rw [hch]
      show w ∈ (if dist u = dist v + 1 then st.queue ++ [u] else u :: st.queue)
      subst hwu
      split
      · exact List.mem_append_right _ (List.mem_singleton_self w)
      · exact List.mem_cons_self w st.queue
    · rcases h with h | h
      · left
        intro p hp u2 hu2 hadm2
        have hpw : (processEdge2 dist cset v st u).paths w = st.paths w :=
          processEdge2_paths_other dist cset v u w st hwu
        rw [hpw] at hp
        rcases h p hp u2 hu2 hadm2 with h2 | h2
        · exact Or.inl h2
        · exact Or.inr (processEdge2_paths_mono dist cset v u u2 st (p ++ [u2]) h2)
      · exact Or.inr (processEdge2_queue_mono dist cset v u st w h)

lemma processFold2_closure_pres (g : Graph) (dist : Nat → Nat) (cset : List (Nat × Nat))
    (v w : Nat) :
    ∀ (l : List Nat) (st : PathsState), closureAt g dist cset st w ∨ w ∈ st.queue →
      closureAt g dist cset (l.foldl (processEdge2 dist cset v) st) w ∨
        w ∈ (l.foldl (processEdge2 dist cset v) st).queue := by
  intro l
  induction l with
  | nil => intro st h; exact h
  | cons u rest ih =>
    intro st h
    exact ih (processEdge2 dist cset v st u)
      (processEdge2_closure_pres g dist cset v u w st h)

lemma processV2_core (g : Graph) (dist : Nat → Nat) (cset : List (Nat × Nat)) (s v : Nat)
    (st : PathsState) (hv : v < g.n) (hb : NbrsBounded g) (hc : Inv2core g dist cset s st) :
    Inv2core g dist cset s (processV2 g dist cset st v) := by
  unfold processV2
  exact foldl_preserves (processEdge2 dist cset v) (g.nbrs v) st hc
    (fun x u hu hx => processEdge2_core g dist cset s v u x hv hu hb hx)

lemma processV2_closure_v (g : Graph) (dist : Nat → Nat) (cset : List (Nat × Nat)) (s v : Nat)
    (st : PathsState) (hc : Inv2core g dist cset s st) :
    closureAt g dist cset (processV2 g dist cset st v) v := by
  have hv : ∀ p ∈ st.paths v, v ∈ p := by
    intro p hp
    exact getLast?_mem p v (hc.2.1 v p hp).2.2.1
  intro p hp u hu hadm
  unfold processV2 at hp ⊢
  rw [processFold2_paths_v dist cset v (g.nbrs v) st hv] at hp
  exact processFold2_closure dist cset v (g.nbrs v) st hv u hu hadm p hp
lemma encodeSeq_cons (n a : Nat) (p : List Nat) :
    encodeSeq n (a :: p) = encodeSeq n p * (n + 1) + (a + 1) := rfl

lemma encodeSeq_inj (n : Nat) :
    ∀ p q : List Nat, (∀ x ∈ p, x < n) → (∀ x ∈ q, x < n) →
      encodeSeq n p = encodeSeq n q → p = q := by
  intro p
  induction p with
  | nil =>
    intro q _ hq h
    cases q with
    | nil => rfl
    | cons b q2 =>
      rw [encodeSeq_cons] at h
      exact absurd h.symm (by
        show ¬(encodeSeq n q2 * (n + 1) + (b + 1) = encodeSeq n [])
        show ¬(encodeSeq n q2 * (n + 1) + (b + 1) = 0)
        omega)
  | cons a p2 ih =>
    intro q hp hq h
    cases q with
    | nil =>
      rw [encodeSeq_cons] at h
      exact absurd h (by
        show ¬(encodeSeq n p2 * (n + 1) + (a + 1) = encodeSeq n [])
        show ¬(encodeSeq n p2 * (n + 1) + (a + 1) = 0)
        omega)
    | cons b q2 =>
      rw [encodeSeq_cons, encodeSeq_cons] at h
      have ha : a + 1 < n + 1 := by
        have := hp a (List.mem_cons_self a p2)
        omega
      have hbb : b + 1 < n + 1 := by
        have := hq b (List.mem_cons_self b q2)
        omega
      have hmod : (a + 1) = (b + 1) := by
        have h1 : (encodeSeq n p2 * (n + 1) + (a + 1)) % (n + 1) = (a + 1) % (n + 1) := by
          rw [Nat.add_comm, Nat.add_mul_mod_self_right]
        have h2 : (encodeSeq n q2 * (n + 1) + (b + 1)) % (n + 1) = (b + 1) % (n + 1) := by
          rw [Nat.add_comm, Nat.add_mul_mod_self_right]
        rw [h] at h1
        rw [h1] at h2
        rw [Nat.mod_eq_of_lt ha, Nat.mod_eq_of_lt hbb] at h2
        exact h2
      have heq : encodeSeq n p2 = encodeSeq n q2 := by
        have h3 : encodeSeq n p2 * (n + 1) = encodeSeq n q2 * (n + 1) := by omega
        exact Nat.eq_of_mul_eq_mul_right (by omega) h3
      have hab : a = b := by omega
      rw [hab, ih q2 (fun x hx => hp x (List.mem_cons_of_mem a hx))
        (fun x hx => hq x (List.mem_cons_of_mem b hx)) heq]

lemma encodeSeq_lt (n : Nat) :
    ∀ p : List Nat, (∀ x ∈ p, x < n) → encodeSeq n p < (n + 1) ^ p.length := by
  intro p
  induction p with
  | nil =>
    intro _
    show encodeSeq n [] < (n + 1) ^ ([] : List Nat).length
    show (0 : Nat) < (n + 1) ^ 0
    rw [pow_zero]
    omega
  | cons a p2 ih =>
    intro hp
    have h1 : encodeSeq n p2 < (n + 1) ^ p2.length :=
      ih (fun x hx => hp x (List.mem_cons_of_mem a hx))
    have ha : a + 1 < n + 1 := by
      have := hp a (List.mem_cons_self a p2)
      omega
    have h2 : encodeSeq n p2 * (n + 1) + (a + 1) < (encodeSeq n p2 + 1) * (n + 1) := by
      rw [Nat.add_mul, Nat.one_mul]
      omega
    have h3 : (encodeSeq n p2 + 1) * (n + 1) ≤ (n + 1) ^ p2.length * (n + 1) :=
      Nat.mul_le_mul_right (n + 1) h1
    rw [encodeSeq_cons, List.length_cons, pow_succ]
    omega

lemma paths_len_le_seqBound (n : Nat) (L : List (List Nat)) (hnd : L.Nodup)
    (h : ∀ p ∈ L, p.Nodup ∧ ∀ x ∈ p, x < n) : L.length ≤ seqBound n := by
  have hmap : (L.map (encodeSeq n)).Nodup := by
    apply List.Nodup.map_on ?_ hnd
    intro x hx y hy hxy
    exact encodeSeq_inj n x y (h x hx).2 (h y hy).2 hxy
  have hlt : ∀ c ∈ L.map (encodeSeq n), c < seqBound n := by
    intro c hc
    obtain ⟨p, hp, rfl⟩ := List.mem_map.mp hc
    have h1 : encodeSeq n p < (n + 1) ^ p.length := encodeSeq_lt n p (h p hp).2
    have h2 : p.length ≤ n := nodup_lt_length_le n p (h p hp).1 (h p hp).2
    have h3 : (n + 1) ^ p.length ≤ (n + 1) ^ (n + 1) :=
      Nat.pow_le_pow_right (by omega) (by omega)
    unfold seqBound
    omega
  have hfin := nodup_lt_length_le (seqBound n) (L.map (encodeSeq n)) hmap hlt
  rw [List.length_map] at hfin
  exact hfin

lemma processEdge2_measure (g : Graph) (dist : Nat → Nat) (cset : List (Nat × Nat))
    (s v u : Nat) (st : PathsState) (hun : u < g.n)
    (hc : Inv2core g dist cset s st) :
    measure2 g.n (processEdge2 dist cset v st u) ≤ measure2 g.n st := by
  rcases processEdge2_char dist cset v st u with hch | ⟨_, hlen, hch⟩
  · rw [hch]
  · rw [hch]
    have hnd : ((st.paths v).foldl (extendOne u) (st.paths u)).Nodup :=
      extendFold_nodup u _ _ (hc.2.2.1 u)
    have hmem : ∀ p ∈ (st.paths v).foldl (extendOne u) (st.paths u),
        p.Nodup ∧ ∀ x ∈ p, x < g.n := by
      intro p hp
      rcases extendFold_new u (st.paths v) (st.paths u) p hp with h | ⟨p0, hp0, rfl, hnu⟩
      · exact ⟨(hc.2.1 u p h).2.2.2, fun x hx => hc.2.2.2.2 u p h x hx⟩
      · constructor
        · rw [List.nodup_append]
          refine ⟨(hc.2.1 v p0 hp0).2.2.2, List.nodup_singleton u, ?_⟩
          intro a ha hmem2
          rw [List.mem_singleton] at hmem2
          rw [hmem2] at ha
          exact hnu ha
        · intro x hx
          rcases List.mem_append.mp hx with h2 | h2
          · exact hc.2.2.2.2 v p0 hp0 x h2
          · rw [List.mem_singleton] at h2
            exact h2 ▸ hun
    have hbound : ((st.paths v).foldl (extendOne u) (st.paths u)).length ≤ seqBound g.n :=
      paths_len_le_seqBound g.n _ hnd hmem
    have hfun : (fun w => seqBound g.n -
          (upd st.paths u ((st.paths v).foldl (extendOne u) (st.paths u)) w).length)
        = upd (fun w => seqBound g.n - (st.paths w).length) u
          (seqBound g.n - ((st.paths v).foldl (extendOne u) (st.paths u)).length) := by
      funext w
      by_cases hw : w = u
      · unfold upd
        rw [if_pos hw, if_pos hw]
      · unfold upd
        rw [if_neg hw, if_neg hw]
    have hsum := sum_map_upd (fun w => seqBound g.n - (st.paths w).length) u
      (seqBound g.n - ((st.paths v).foldl (extendOne u) (st.paths u)).length)
      (List.range g.n) (List.mem_range.mpr hun) (List.nodup_range g.n)
      (by
        show seqBound g.n - ((st.paths v).foldl (extendOne u) (st.paths u)).length
          ≤ seqBound g.n - (st.paths u).length
        omega)
    have hsum2 : ((List.range g.n).map (upd (fun w => seqBound g.n - (st.paths w).length) u
          (seqBound g.n - ((st.paths v).foldl (extendOne u) (st.paths u)).length))).sum
        + (seqBound g.n - (st.paths u).length)
      = ((List.range g.n).map (fun w => seqBound g.n - (st.paths w).length)).sum
        + (seqBound g.n - ((st.paths v).foldl (extendOne u) (st.paths u)).length) := hsum
    have hqlen : (if dist u = dist v + 1 then st.queue ++ [u] else u :: st.queue).length
        = st.queue.length + 1 := by
      split
      · rw [List.length_append, List.length_singleton]
      · rw [List.length_cons]
    show 2 * ((List.range g.n).map (fun w => seqBound g.n -
        (upd st.paths u ((st.paths v).foldl (extendOne u) (st.paths u)) w).length)).sum
        + (if dist u = dist v + 1 then st.queue ++ [u] else u :: st.queue).length
      ≤ 2 * ((List.range g.n).map (fun w => seqBound g.n - (st.paths w).length)).sum
        + st.queue.length
    rw [hfun, hqlen]
    omega

lemma processFold2_measure (g : Graph) (dist : Nat → Nat) (cset : List (Nat × Nat))
    (s v : Nat) (hv : v < g.n) (hb : NbrsBounded g) :
    ∀ (l : List Nat) (st : PathsState), (∀ u ∈ l, u ∈ g.nbrs v) →
      Inv2core g dist cset s st →
      measure2 g.n (l.foldl (processEdge2 dist cset v) st) ≤ measure2 g.n st := by
  intro l
  induction l with
  | nil => intro st _ _; exact Nat.le_refl _
  | cons u rest ih =>
    intro st hl hc
    have hu : u ∈ g.nbrs v := hl u (List.mem_cons_self u rest)
    have hun : u < g.n := hb v hv u hu
    have h1 := processEdge2_measure g dist cset s v u st hun hc
    have h2 := ih (processEdge2 dist cset v st u)
      (fun u2 hu2 => hl u2 (List.mem_cons_of_mem u hu2))
      (processEdge2_core g dist cset s v u st hv hu hb hc)
    exact Nat.le_trans h2 h1
lemma step2_Inv2 (g : Graph) (dist : Nat → Nat) (cset : List (Nat × Nat)) (s v : Nat)
    (rest : List Nat) (st : PathsState) (hb : NbrsBounded g)
    (hInv : Inv2 g dist cset s st) (hq : st.queue = v :: rest) :
    Inv2 g dist cset s (processV2 g dist cset ⟨st.paths, rest⟩ v) := by
  have hvn : v < g.n := hInv.1.2.2.2.1 v (by rw [hq]; exact List.mem_cons_self v rest)
  have hcore1 : Inv2core g dist cset s ⟨st.paths, rest⟩ := by
    obtain ⟨h1, h2, h3, h4, h5⟩ := hInv.1
    exact ⟨h1, h2, h3, fun w hw => h4 w (by rw [hq]; exact List.mem_cons_of_mem v hw), h5⟩
  refine ⟨processV2_core g dist cset s v ⟨st.paths, rest⟩ hvn hb hcore1, ?_⟩
  intro w hw
  by_cases hwv : w = v
  · subst hwv
    left
    exact processV2_closure_v g dist cset s w ⟨st.paths, rest⟩ hcore1
  · rcases hInv.2 w hw with h | h
    · have h2 : closureAt g dist cset ⟨st.paths, rest⟩ w := h
      unfold processV2
      exact processFold2_closure_pres g dist cset v w (g.nbrs v) ⟨st.paths, rest⟩ (Or.inl h2)
    · rw [hq] at h
      rcases List.mem_cons.mp h with h2 | h2
      · exact absurd h2 hwv
      · unfold processV2
        exact processFold2_closure_pres g dist cset v w (g.nbrs v) ⟨st.paths, rest⟩
          (Or.inr h2)

lemma step2_measure (g : Graph) (dist : Nat → Nat) (cset : List (Nat × Nat)) (s v : Nat)
    (rest : List Nat) (st : PathsState) (hb : NbrsBounded g) (hvn : v < g.n)
    (hcore1 : Inv2core g dist cset s ⟨st.paths, rest⟩) (hq : st.queue = v :: rest) :
    measure2 g.n (processV2 g dist cset ⟨st.paths, rest⟩ v) < measure2 g.n st := by
  have h1 := processFold2_measure g dist cset s v hvn hb (g.nbrs v) ⟨st.paths, rest⟩
    (fun u hu => hu) hcore1
  have h2 : measure2 g.n (⟨st.paths, rest⟩ : PathsState) + 1 = measure2 g.n st := by
    unfold measure2
    rw [hq]
    show 2 * ((List.range g.n).map (fun w => seqBound g.n - (st.paths w).length)).sum
        + rest.length + 1
      = 2 * ((List.range g.n).map (fun w => seqBound g.n - (st.paths w).length)).sum
        + (v :: rest).length
    rw [List.length_cons]
    omega
  unfold processV2
  omega

lemma bfs2_spec (g : Graph) (dist : Nat → Nat) (cset : List (Nat × Nat)) (s : Nat)
    (hb : NbrsBounded g) :
    ∀ fuel st, Inv2 g dist cset s st → measure2 g.n st < fuel →
      Inv2 g dist cset s (bfs2 g dist cset fuel st) ∧
        (bfs2 g dist cset fuel st).queue = [] := by
  intro fuel
  induction fuel with
  | zero =>
    intro st _ h
    omega
  | succ fuel ih =>
    intro st hInv hm
    cases hqeq : st.queue with
    | nil =>
      rw [bfs2, hqeq]
      exact ⟨hInv, hqeq⟩
    | cons v rest =>
      have hvn : v < g.n := hInv.1.2.2.2.1 v (by rw [hqeq]; exact List.mem_cons_self v rest)
      have hcore1 : Inv2core g dist cset s ⟨st.paths, rest⟩ := by
        obtain ⟨h1, h2, h3, h4, h5⟩ := hInv.1
        exact ⟨h1, h2, h3, fun w hw => h4 w (by rw [hqeq]; exact List.mem_cons_of_mem v hw),
          h5⟩
      have hstep := step2_Inv2 g dist cset s v rest st hb hInv hqeq
      have hmeas : measure2 g.n (processV2 g dist cset ⟨st.paths, rest⟩ v) < fuel := by
        have := step2_measure g dist cset s v rest st hb hvn hcore1 hqeq
        omega
      rw [bfs2, hqeq]
      exact ih (processV2 g dist cset ⟨st.paths, rest⟩ v) hstep hmeas
lemma adm_weight (g : Graph) (cset : List (Nat × Nat)) (D : Nat → Nat)
    (hrel : Relaxed g cset D) :
    ∀ p a b, Adm g D cset p → p.head? = some a → p.getLast? = some b →
      (∀ x ∈ p, x < g.n) → D b = D a + pathWeight cset p := by
  intro p
  induction p with
  | nil => intro a b _ hh; cases hh
  | cons x q ih =>
    intro a b hAdm hh hl hbound
    rw [List.head?_cons, Option.some_inj] at hh
    cases q with
    | nil =>
      rw [List.getLast?_singleton, Option.some_inj] at hl
      rw [← hh, ← hl]
      show D x = D x + 0
      omega
    | cons y rest =>
      unfold Adm at hAdm
      rw [List.chain'_cons] at hAdm
      obtain ⟨⟨hnb, hstep⟩, hAdm2⟩ := hAdm
      have hxn : x < g.n := hbound x (List.mem_cons_self x (y :: rest))
      have h1 := ih y b hAdm2 rfl (by rw [← hl, List.getLast?_cons_cons])
        (fun z hz => hbound z (List.mem_cons_of_mem x hz))
      have hstep2 : D y = D x + wgt cset x y := by
        rcases hstep with h | ⟨h, hcon⟩
        · have hncon : ¬cset.contains (y, x) = true := by
            intro hcon
            have h2 := hrel x hxn y hnb
            have hw0 : wgt cset x y = 0 := by
              unfold wgt
              rw [if_pos hcon]
            rw [hw0] at h2
            omega
          have hw1 : wgt cset x y = 1 := by
            unfold wgt
            rw [if_neg hncon]
          omega
        · have hw0 : wgt cset x y = 0 := by
            unfold wgt
            rw [if_pos hcon]
          omega
      have hpw : pathWeight cset (x :: y :: rest)
          = wgt cset x y + pathWeight cset (y :: rest) := rfl
      rw [← hh]
      omega

lemma tight_adm (g : Graph) (cset : List (Nat × Nat)) (D : Nat → Nat)
    (hrel : Relaxed g cset D) (hb : NbrsBounded g) :
    ∀ p a b, IsWalk g p → p.head? = some a → p.getLast? = some b →
      a < g.n → D b = D a + pathWeight cset p → Adm g D cset p := by
  intro p
  induction p with
  | nil => intro a b _ hh; cases hh
  | cons x q ih =>
    intro a b hw hh hl han htight
    rw [List.head?_cons, Option.some_inj] at hh
    rw [← hh] at han htight
    cases q with
    | nil => exact List.chain'_singleton x
    | cons y rest =>
      unfold IsWalk at hw
      rw [List.chain'_cons] at hw
      obtain ⟨hnb, hw2⟩ := hw
      have hyn : y < g.n := hb x han y hnb
      have hl2 : (y :: rest).getLast? = some b := by
        rw [← hl, List.getLast?_cons_cons]
      have hrel1 : D y ≤ D x + wgt cset x y := hrel x han y hnb
      have hwalk2 : D b ≤ D y + pathWeight cset (y :: rest) :=
        dist_le_along_walk g cset D hrel hb (y :: rest) y b hw2 rfl hl2 hyn
      have hpw : pathWeight cset (x :: y :: rest)
          = wgt cset x y + pathWeight cset (y :: rest) := rfl
      rw [hpw] at htight
      have hDy : D y = D x + wgt cset x y := by omega
      have htight2 : D b = D y + pathWeight cset (y :: rest) := by omega
      have hstep : D y = D x + 1 ∨ (D y = D x ∧ cset.contains (y, x) = true) := by
        by_cases hcon : cset.contains (y, x) = true
        · right
          have hw0 : wgt cset x y = 0 := by
            unfold wgt
            rw [if_pos hcon]
          exact ⟨by omega, hcon⟩
        · left
          have hw1 : wgt cset x y = 1 := by
            unfold wgt
            rw [if_neg hcon]
          omega
      have hAdm2 := ih y b hw2 rfl hl2 hyn htight2
      unfold Adm
      rw [List.chain'_cons]
      exact ⟨⟨hnb, hstep⟩, hAdm2⟩

lemma dedupFold_mem :
    ∀ (l acc : List (List Nat)) (p : List Nat),
      p ∈ l.foldl (fun acc q => if acc.contains q then acc else acc ++ [q]) acc ↔
        (p ∈ acc ∨ p ∈ l) := by
  intro l
  induction l with
  | nil =>
    intro acc p
    constructor
    · intro h; exact Or.inl h
    · intro h
      rcases h with h | h
      · exact h
      · cases h
  | cons q rest ih =>
    intro acc p
    show p ∈ rest.foldl (fun acc q => if acc.contains q then acc else acc ++ [q])
        (if acc.contains q then acc else acc ++ [q]) ↔ (p ∈ acc ∨ p ∈ q :: rest)
    rw [ih]
    constructor
    · intro h
      rcases h with h | h
      · split at h
        · exact Or.inl h
        · rcases List.mem_append.mp h with h2 | h2
          · exact Or.inl h2
          · exact Or.inr (List.mem_cons.mpr (Or.inl (List.mem_singleton.mp h2)))
      · exact Or.inr (List.mem_cons_of_mem q h)
    · intro h
      rcases h with h | h
      · left
        split
        · exact h
        · exact List.mem_append_left _ h
      · rcases List.mem_cons.mp h with h2 | h2
        · left
          split
          case isTrue hc =>
            rw [h2]
            simpa using hc
          case isFalse hc =>
            rw [h2]
            exact List.mem_append_right _ (List.mem_singleton_self q)
        · exact Or.inr h2

lemma dedupFold_nodup :
    ∀ (l acc : List (List Nat)), acc.Nodup →
      (l.foldl (fun acc q => if acc.contains q then acc else acc ++ [q]) acc).Nodup := by
  intro l
  induction l with
  | nil => intro acc h; exact h
  | cons q rest ih =>
    intro acc h
    apply ih
    show (if acc.contains q then acc else acc ++ [q]).Nodup
    split
    case isTrue hc => exact h
    case isFalse hc =>
      rw [List.nodup_append]
      refine ⟨h, List.nodup_singleton q, ?_⟩
      intro a ha hmem
      rw [List.mem_singleton] at hmem
      rw [hmem] at ha
      exact hc (by simpa using ha)

lemma dedupPaths_mem (l : List (List Nat)) (p : List Nat) :
    p ∈ dedupPaths l ↔ p ∈ l := by
  unfold dedupPaths
  rw [dedupFold_mem]
  constructor
  · intro h
    rcases h with h | h
    · cases h
    · exact h
  · intro h
    exact Or.inr h

lemma dedupPaths_nodup (l : List (List Nat)) : (dedupPaths l).Nodup :=
  dedupFold_nodup l [] List.nodup_nil

lemma getLast?_some_of_ne_nil {α : Type} :
    ∀ (l : List α), l ≠ [] → ∃ v, l.getLast? = some v := by
  intro l
  induction l with
  | nil => intro h; cases h rfl
  | cons a q ih =>
    intro _
    cases q with
    | nil => exact ⟨a, rfl⟩
    | cons b rest =>
      obtain ⟨v, hv⟩ := ih (List.cons_ne_nil b rest)
      exact ⟨v, by rw [List.getLast?_cons_cons]; exact hv⟩

lemma final_complete (g : Graph) (dist : Nat → Nat) (cset : List (Nat × Nat)) (s : Nat)
    (st : PathsState) (hInv : Inv2 g dist cset s st) (hempty : st.queue = []) :
    ∀ p, Adm g dist cset p → p.head? = some s → p.Nodup → (∀ x ∈ p, x < g.n) →
      ∀ w, p.getLast? = some w → p ∈ st.paths w := by
  have hclo : ∀ v, v < g.n → closureAt g dist cset st v := by
    intro v hv
    rcases hInv.2 v hv with h | h
    · exact h
    · rw [hempty] at h
      cases h
  intro p
  induction p using List.reverseRecOn with
  | nil =>
    intro _ hh
    cases hh
  | append_singleton q u ih =>
    intro hAdm hh hnd hbound w hl
    rw [getLast?_append_single, Option.some_inj] at hl
    rw [← hl]
    cases hq : q with
    | nil =>
      rw [hq] at hh
      have hus : u = s := by
        rw [hq] at hAdm hnd hbound
        have : ([] ++ [u] : List Nat).head? = some u := rfl
        rw [this, Option.some_inj] at hh
        exact hh
      show [u] ∈ st.paths u
      rw [hus]
      exact hInv.1.1
    | cons a q2 =>
      rw [hq] at hAdm hh hnd hbound ih
      obtain ⟨v, hv⟩ := getLast?_some_of_ne_nil (a :: q2) (List.cons_ne_nil a q2)
      have hh2 : (a :: q2).head? = some s := by
        rw [head?_append_single (a :: q2) u (List.cons_ne_nil a q2)] at hh
        exact hh
      unfold Adm at hAdm
      rw [List.chain'_append] at hAdm
      obtain ⟨hAdm1, _, hlink⟩ := hAdm
      have hR := hlink v (by rw [hv]; rfl) u (by rw [List.head?_cons]; rfl)
      have hnd1 : (a :: q2).Nodup :=
        List.Nodup.sublist (List.sublist_append_left (a :: q2) [u]) hnd
      have hbound1 : ∀ x ∈ (a :: q2), x < g.n :=
        fun x hx => hbound x (List.mem_append_left _ hx)
      have hqmem : (a :: q2) ∈ st.paths v := ih hAdm1 hh2 hnd1 hbound1 v hv
      have hvn : v < g.n := hbound1 v (getLast?_mem (a :: q2) v hv)
      have hnotin : u ∉ (a :: q2) := by
        intro hmem
        rw [List.nodup_append] at hnd
        exact hnd.2.2 hmem (List.mem_singleton_self u)
      rcases hclo v hvn (a :: q2) hqmem u hR.1 hR.2 with h | h
      · exact absurd h hnotin
      · exact h

lemma Inv2_init (g : Graph) (dist : Nat → Nat) (cset : List (Nat × Nat)) (s : Nat)
    (hs : s < g.n) :
    Inv2 g dist cset s ⟨upd (fun _ => []) s [[s]], [s]⟩ := by
  constructor
  · refine ⟨?_, ?_, ?_, ?_, ?_⟩
    · show [s] ∈ upd (fun _ => []) s [[s]] s
      rw [upd_self]
      exact List.mem_singleton_self [s]
    · intro v p hp
      have hp2 : p ∈ upd (fun _ => ([] : List (List Nat))) s [[s]] v := hp
      by_cases hv : v = s
      · rw [hv, upd_self, List.mem_singleton] at hp2
        rw [hp2, hv]
        exact ⟨List.chain'_singleton s, rfl, List.getLast?_singleton s, List.nodup_singleton s⟩
      · rw [upd_ne _ _ _ _ hv] at hp2
        cases hp2
    · intro v
      show (upd (fun _ => ([] : List (List Nat))) s [[s]] v).Nodup
      by_cases hv : v = s
      · rw [hv, upd_self]
        exact List.nodup_singleton [s]
      · rw [upd_ne _ _ _ _ hv]
        exact List.nodup_nil
    · intro v hv
      have : v ∈ [s] := hv
      rw [List.mem_singleton] at this
      rw [this]
      exact hs
    · intro v p hp y hy
      have hp2 : p ∈ upd (fun _ => ([] : List (List Nat))) s [[s]] v := hp
      by_cases hv : v = s
      · rw [hv, upd_self, List.mem_singleton] at hp2
        rw [hp2, List.mem_singleton] at hy
        rw [hy]
        exact hs
      · rw [upd_ne _ _ _ _ hv] at hp2
        cases hp2
  · intro v hv
    by_cases hv2 : v = s
    · right
      rw [hv2]
      exact List.mem_singleton_self s
    · left
      intro p hp
      have hp2 : p ∈ upd (fun _ => ([] : List (List Nat))) s [[s]] v := hp
      rw [upd_ne _ _ _ _ hv2] at hp2
      cases hp2
lemma measure2_init (g : Graph) (s : Nat) :
    measure2 g.n ⟨upd (fun _ => []) s [[s]], [s]⟩ < fuel2 g.n := by
  have hsum := range_sum_le g.n (seqBound g.n)
    (fun v => seqBound g.n - (upd (fun _ => ([] : List (List Nat))) s [[s]] v).length)
    (fun v => by
      show seqBound g.n - (upd (fun _ => ([] : List (List Nat))) s [[s]] v).length
        ≤ seqBound g.n
      omega)
  have h2 : 2 * (g.n * seqBound g.n) = 2 * g.n * seqBound g.n := by ring
  show 2 * ((List.range g.n).map
      (fun v => seqBound g.n - (upd (fun _ => ([] : List (List Nat))) s [[s]] v).length)).sum
      + [s].length < fuel2 g.n
  rw [List.length_singleton]
  unfold fuel2
  omega

lemma bfs2_final_mem (g : Graph) (cset : List (Nat × Nat)) (D : Nat → Nat) (s t : Nat)
    (hb : NbrsBounded g) (hs : s < g.n) (hD0 : D s = 0) (hrel : Relaxed g cset D) :
    ∀ p, p ∈ (bfs2 g D cset (fuel2 g.n) ⟨upd (fun _ => []) s [[s]], [s]⟩).paths t ↔
      (SimplePath g s t p ∧ pathWeight cset p = D t) := by
  obtain ⟨hIf, hqe⟩ := bfs2_spec g D cset s hb (fuel2 g.n) ⟨upd (fun _ => []) s [[s]], [s]⟩
    (Inv2_init g D cset s hs) (measure2_init g s)
  intro p
  constructor
  · intro hp
    obtain ⟨hAdm, hh, hl, hnd⟩ := hIf.1.2.1 t p hp
    have hbound : ∀ y ∈ p, y < g.n := fun y hy => hIf.1.2.2.2.2 t p hp y hy
    have hwalk : IsWalk g p := List.Chain'.imp (fun a b hab => hab.1) hAdm
    refine ⟨⟨hwalk, hh, hl, hnd⟩, ?_⟩
    have := adm_weight g cset D hrel p s t hAdm hh hl hbound
    omega
  · intro hhyp
    obtain ⟨⟨hwalk, hh, hl, hnd⟩, hweight⟩ := hhyp
    have hbound : ∀ x ∈ p, x < g.n := walk_members_lt g hb p s hwalk hh hs
    have hAdm : Adm g D cset p := tight_adm g cset D hrel hb p s t hwalk hh hl hs (by omega)
    exact final_complete g D cset s _ hIf hqe p hAdm hh hnd hbound t hl

/-- C9: shortestPaths(s, t, flag) returns exactly the simple s-to-t paths of
minimum total weight under the selected metric (contracted edges weigh 0 when
the flag is set, every other edge 1), each appearing exactly once. -/
theorem shortestPaths_correct (g : Graph) (contract : List (Nat × Nat)) (s t : Nat)
    (afterContract : Bool) (hb : NbrsBounded g) (hs : s < g.n) (hn : g.n ≤ INF) :
    (∀ p, p ∈ shortestPathsF g contract s t afterContract ↔
        (SimplePath g s t p ∧ ∀ q, SimplePath g s t q →
          pathWeight (csetOf contract afterContract) p
            ≤ pathWeight (csetOf contract afterContract) q)) ∧
      (shortestPathsF g contract s t afterContract).Nodup := by
  obtain ⟨hD0, hDle, hreal, hrel⟩ :=
    dist01_spec g (csetOf contract afterContract) s hb hs
  have hSP : shortestPathsF g contract s t afterContract
      = dedupPaths ((bfs2 g (dist01 g (csetOf contract afterContract) s)
          (csetOf contract afterContract) (fuel2 g.n)
          ⟨upd (fun _ => []) s [[s]], [s]⟩).paths t) := rfl
  constructor
  · intro p
    rw [hSP, dedupPaths_mem,
      bfs2_final_mem g (csetOf contract afterContract)
        (dist01 g (csetOf contract afterContract) s) s t hb hs hD0 hrel p]
    constructor
    · intro hhyp
      obtain ⟨hsimple, hw⟩ := hhyp
      refine ⟨hsimple, ?_⟩
      intro q hq
      obtain ⟨hqw, hqh, hql, _⟩ := hq
      have h1 := dist_le_along_walk g (csetOf contract afterContract)
        (dist01 g (csetOf contract afterContract) s) hrel hb q s t hqw hqh hql hs
      omega
    · intro hhyp
      obtain ⟨hsimple, hmin⟩ := hhyp
      refine ⟨hsimple, ?_⟩
      obtain ⟨hpw, hph, hpl, hpnd⟩ := hsimple
      have hDle2 := dist_le_along_walk g (csetOf contract afterContract)
        (dist01 g (csetOf contract afterContract) s) hrel hb p s t hpw hph hpl hs
      have hwlen := pathWeight_le_length (csetOf contract afterContract) p
      have hplen : p.length ≤ g.n :=
        nodup_lt_length_le g.n p hpnd (walk_members_lt g hb p s hpw hph hs)
      have hINF : INF = 10000 := rfl
      have hlt : dist01 g (csetOf contract afterContract) s t < INF := by omega
      rcases hreal t with h | hex
      · omega
      · obtain ⟨w, hww, hwh, hwl, hwweight⟩ := hex
        obtain ⟨q2, hq2w, hq2nd, hq2h, hq2l, hq2weight, _⟩ :=
          walk_to_simple g (csetOf contract afterContract) w.length w (Nat.le_refl _) hww
        have hq2simple : SimplePath g s t q2 :=
          ⟨hq2w, by rw [hq2h]; exact hwh, by rw [hq2l]; exact hwl, hq2nd⟩
        have hminq := hmin q2 hq2simple
        omega
  · rw [hSP]
    exact dedupPaths_nodup _

theorem shortestPaths_correct_witness :
    NbrsBounded ring4 ∧ 0 < ring4.n ∧ ring4.n ≤ INF ∧
      ((∀ p, p ∈ shortestPathsF ring4 [] 0 2 false ↔
          (SimplePath ring4 0 2 p ∧ ∀ q, SimplePath ring4 0 2 q →
            pathWeight (csetOf [] false) p ≤ pathWeight (csetOf [] false) q)) ∧
        (shortestPathsF ring4 [] 0 2 false).Nodup) :=
  ⟨by decide, by decide, by decide,
    shortestPaths_correct ring4 [] 0 2 false (by decide) (by decide) (by decide)⟩
